import Mathlib

/-!
# HyperLogLog estimator (`hll.go`)

A shallow embedding of the Go package `hll`: the estimator record `HLL`, its
constructor `New`, the update `Add`, the read `Count`, and the helpers
`leftmostActiveBit` and `createHash`.

Conventions of the embedding.

* `uint64`, `uint`, `uint8` values are natural numbers; every operation that can
  wrap is written with an explicit `% 2 ^ w`.
* The target is linux/amd64: Go's `int` and `uintptr` are 64 bits wide and the runtime's
  `maxAlloc` is `2 ^ 48` bytes.
* A Go run-time panic (`makeslice: len out of range`, slice index out of range) is the
  result `none` of `New` and `Add`.  Memory exhaustion is not modelled.
* `float64` arithmetic in `Count` is read as exact real arithmetic on finite values; a
  `float64` that is `NaN` or infinite is `none`.
* A conversion `uint64(x)` whose result the Go specification leaves implementation-dependent
  (`x` is `NaN`, infinite or outside the range of `uint64`) is `none`.
-/

namespace Hll

/-- One element of a Go `[]byte`. -/
abbrev Byte := Fin 256

/-- The constant `bitUsed` of `hll.go`. -/
def bitUsed : Nat := 64

/-- The estimator record: `registers []uint`, `m uint64`, `p uint8`. -/
structure HLL where
  registers : List Nat
  m : Nat
  p : Nat
  deriving DecidableEq, Repr

/-- The value of a Go `int` (64 bits, two's complement) holding the low 64 bits `n % 2 ^ 64`. -/
def toInt64 (n : Nat) : Int :=
  if n % 2 ^ 64 < 2 ^ 63 then ((n % 2 ^ 64 : Nat) : Int) else ((n % 2 ^ 64 : Nat) : Int) - 2 ^ 64

/-- The Go runtime's `maxAlloc` on linux/amd64 (48 heap address bits), in bytes. -/
def maxAlloc : Nat := 2 ^ 48

/-- The size in bytes of one `uint` element on a 64-bit target. -/
def uintSize : Nat := 8

/-- The constructor `New(precision uint32)`.  The length `1<<precision` handed to `make` is an
`int`; the runtime's `makeslice` panics (`len out of range`) when the length is negative, when
the byte size `uintSize * len` overflows `uintptr`, or when it exceeds `maxAlloc`.  The field
`m` is the same shift in `uint64`, and `p` is `uint8(precision)`. -/
def New (precision : Nat) : Option HLL :=
  let len : Int := toInt64 (1 <<< precision)
  if len < 0 ∨ uintSize * len.toNat ≥ 2 ^ 64 ∨ uintSize * len.toNat > maxAlloc then none
  else some
    { registers := List.replicate len.toNat 0
      m := (1 <<< precision) % 2 ^ 64
      p := precision % 256 }

/-- The number of binary digits of `x`, found by halving at most `fuel` times. -/
def bitLength : Nat → Nat → Nat
  | 0, _ => 0
  | fuel + 1, x => if x = 0 then 0 else bitLength fuel (x / 2) + 1

/-- Go's `bits.Len64`: the number of bits needed to write the `uint64` value `x`, and `0` for
`x = 0`. -/
def Len64 (x : Nat) : Nat := bitLength 64 x

/-- Go's `bits.LeadingZeros64`, which is `64 - Len64(x)`. -/
def LeadingZeros64 (x : Nat) : Nat := 64 - Len64 x

/-- The helper `leftmostActiveBit(x uint64) uint`. -/
def leftmostActiveBit (x : Nat) : Nat := 1 + LeadingZeros64 x

/-- The FNV-1 offset basis of Go's `hash/fnv` (`offset64`). -/
def offset64 : Nat := 14695981039346656037

/-- The FNV-1 prime of Go's `hash/fnv` (`prime64`). -/
def prime64 : Nat := 1099511628211

/-- The body of `(*sum64).Write` in Go's `hash/fnv`: for each byte, multiply by the prime
(wrapping at 64 bits), then xor the byte in. -/
def fnvWrite (hash : Nat) (data : List Byte) : Nat :=
  data.foldl (fun acc c => ((acc * prime64) % 2 ^ 64) ^^^ c.val) hash

/-- The helper `createHash(stream []byte) uint64`: `fnv.New64()`, `Write`, `Sum64`. -/
def createHash (stream : List Byte) : Nat := fnvWrite offset64 stream

/-- The `uint8` value `numHashBits := bitUsed - h.p`. -/
def numHashBits (p : Nat) : Nat := (bitUsed + 256 - p % 256) % 256

/-- The register index `hashval >> uint64(numHashBits)` of `Add`. -/
def registerIndex (p hashval : Nat) : Nat := hashval >>> numHashBits p

/-- The `uint64` value `remainingBits := hashval << uint64(h.p)` of `Add`. -/
def remainingBits (p hashval : Nat) : Nat := (hashval <<< (p % 256)) % 2 ^ 64

/-- The rank `leftmostActiveBit(uint64(remainingBits))` of `Add`. -/
def rank (p hashval : Nat) : Nat := leftmostActiveBit (remainingBits p hashval)

/-- The body of `Add` after the hash has been taken: compute index and rank, then raise the
indexed register to the rank when the rank is larger.  An index outside the slice panics. -/
def AddHash (h : HLL) (hashval : Nat) : Option HLL :=
  let idx := registerIndex h.p hashval
  let r := rank h.p hashval
  if hlt : idx < h.registers.length then
    if r > h.registers[idx] then
      some { h with registers := h.registers.set idx r }
    else some h
  else none

/-- The method `(h *HLL) Add(data []byte)`. -/
def Add (h : HLL) (data : List Byte) : Option HLL :=
  AddHash h (createHash data)

/-- A run of `Add` calls, left to right; it panics as soon as one call does. -/
def AddAll (h : HLL) : List (List Byte) → Option HLL
  | [] => some h
  | x :: xs => (Add h x).bind fun h1 => AddAll h1 xs

/-- The conversion `uint64(x)` of a finite `float64`: truncation toward zero when the
truncated value is representable (`-1 < x < 2 ^ 64`), and `none` otherwise, where the Go
specification leaves the result implementation-dependent. -/
noncomputable def toUint64 (x : ℝ) : Option Nat :=
  if -1 < x ∧ x < 2 ^ 64 then some ⌊x⌋₊ else none

/-- The loop `for _, v := range h.registers { sum += math.Pow(math.Pow(2, float64(v)), -1) }`. -/
noncomputable def harmonicSum (registers : List Nat) : ℝ :=
  registers.foldl (fun (sum : ℝ) (v : Nat) => sum + Real.rpow (Real.rpow 2 (v : ℝ)) (-1)) 0

/-- The loop `for _, v := range h.registers { if v == 0 { c++ } }`. -/
def zeroCount (registers : List Nat) : Nat :=
  registers.foldl (fun (c : Nat) (v : Nat) => if v = 0 then c + 1 else c) 0

/-- The value `estimate := .79402 * m * m / sum` of `Count`.  With no register the sum is `0`
and the quotient is `NaN` (for `m = 0`) or `+Inf` (for `m > 0`): `none`. -/
noncomputable def estimate (h : HLL) : Option ℝ :=
  if harmonicSum h.registers = 0 then none
  else some (0.79402 * (h.m : ℝ) * (h.m : ℝ) / harmonicSum h.registers)

/-- The method `(h *HLL) Count() uint64`.  A `NaN` or infinite `estimate` fails the comparison
`estimate <= float64(h.m)*2.5` and is converted as it is; in the linear-counting branch
`fm = 0` gives `math.Log(0) = -Inf` and `0 * -Inf = NaN`. -/
noncomputable def Count (h : HLL) : Option Nat :=
  match estimate h with
  | none => none
  | some est =>
    if est ≤ (h.m : ℝ) * 2.5 then
      let c := zeroCount h.registers
      if c = 0 then toUint64 est
      else
        let fm : ℝ := (h.m : ℝ)
        if fm = 0 then none
        else toUint64 (fm * Real.log (fm / (c : ℝ)))
    else toUint64 est

/-- Proof device: the register array after register `i` has been raised to at least `r`
(the array itself when `i` is not a position of it). -/
def raise (l : List Nat) (i r : Nat) : List Nat := l.set i (max (l.getD i 0) r)

/-- The register array after a run of `Add` calls whose indices are all valid. -/
def raiseAll (p : Nat) (l : List Nat) (xs : List (List Byte)) : List Nat :=
  xs.foldl (fun acc x => raise acc (registerIndex p (createHash x)) (rank p (createHash x))) l

/-- The largest rank among the elements of `xs` whose register index is `i`, and `0` when no
element of `xs` has index `i`. -/
def maxRankAt (p i : Nat) (xs : List (List Byte)) : Nat :=
  ((xs.filter fun x => registerIndex p (createHash x) = i).map
    fun x => rank p (createHash x)).foldr max 0

/-- The (index, rank) pair that `Add` derives from an element at precision `p`. -/
def indexRank (p : Nat) (x : List Byte) : Nat × Nat :=
  (registerIndex p (createHash x), rank p (createHash x))

/-- The invariant of an estimator of precision below 64: one register per index value. -/
def WellFormed (h : HLL) : Prop := h.p ≤ 63 ∧ h.registers.length = 2 ^ h.p

/-- The sum over all registers of `2 ^ (-registers[i])`, in the words of the specification. -/
noncomputable def specSum (registers : List Nat) : ℝ :=
  (registers.map fun (v : Nat) => (2 : ℝ) ^ (-(v : ℤ))).sum

/-- The raw estimate `0.79402 * m ^ 2 / sum` of the specification, `m` the number of
registers. -/
noncomputable def specRaw (registers : List Nat) : ℝ :=
  0.79402 * (registers.length : ℝ) ^ 2 / specSum registers

/-- The number `c` of registers equal to `0`. -/
def specZeros (registers : List Nat) : Nat := (registers.filter fun v => v = 0).length

/-- The reconstruction formula as the specification words it: linear counting
`floor (m * ln (m / c))` when `raw ≤ 2.5 * m` and `c > 0`, and `floor raw` otherwise. -/
noncomputable def CountSpec (registers : List Nat) : Nat :=
  if specRaw registers ≤ 2.5 * (registers.length : ℝ) ∧ specZeros registers > 0 then
    ⌊(registers.length : ℝ) * Real.log ((registers.length : ℝ) / (specZeros registers : ℝ))⌋₊
  else ⌊specRaw registers⌋₊

/-- The bytes of the string `U8qXtjFA`, whose FNV-1 hash is `0xba31000000000000`. -/
def zeroSuffix : List Byte := [85, 56, 113, 88, 116, 106, 70, 65]

/-- The strings of `TestHLL`, as bytes: `Sigma Balls`, `Ridho`, `Rizki`, `Juli`, `Siti`. -/
def sigmaBalls : List Byte := [83, 105, 103, 109, 97, 32, 66, 97, 108, 108, 115]

/-- The bytes of `Ridho`. -/
def ridho : List Byte := [82, 105, 100, 104, 111]

/-- The bytes of `Rizki`. -/
def rizki : List Byte := [82, 105, 122, 107, 105]

/-- The bytes of `Juli`. -/
def juli : List Byte := [74, 117, 108, 105]

/-- The bytes of `Siti`. -/
def siti : List Byte := [83, 105, 116, 105]

/-- The six `Add` arguments of `TestHLL`, in order. -/
def testInputs : List (List Byte) := [sigmaBalls, ridho, rizki, juli, juli, siti]

/-- The bytes of the fifteen strings `29-item`, `22-item`, `12-item`, `5-item`, `10-item`,
`14-item`, `13-item`, `37-item`, `8-item`, `30-item`, `44-item`, `18-item`, `45-item`,
`9-item`, `19-item`: at precision 4 they have the indices 1 to 15 in this order, each with
rank 1. -/
def fifteenItems : List (List Byte) :=
  [[50, 57, 45, 105, 116, 101, 109],
    [50, 50, 45, 105, 116, 101, 109],
    [49, 50, 45, 105, 116, 101, 109],
    [53, 45, 105, 116, 101, 109],
    [49, 48, 45, 105, 116, 101, 109],
    [49, 52, 45, 105, 116, 101, 109],
    [49, 51, 45, 105, 116, 101, 109],
    [51, 55, 45, 105, 116, 101, 109],
    [56, 45, 105, 116, 101, 109],
    [51, 48, 45, 105, 116, 101, 109],
    [52, 52, 45, 105, 116, 101, 109],
    [49, 56, 45, 105, 116, 101, 109],
    [52, 53, 45, 105, 116, 101, 109],
    [57, 45, 105, 116, 101, 109],
    [49, 57, 45, 105, 116, 101, 109]]

/-- The bytes of the string `1-item`, which at precision 4 has index 0 and rank 1. -/
def lastItem : List Byte := [49, 45, 105, 116, 101, 109]

/-- The maximum of `1 + leadingZeros(hash)` over the added elements, in the words of the
specification (`0` when nothing has been added). -/
def maxLeadingRank (xs : List (List Byte)) : Nat :=
  (xs.map fun x => 1 + LeadingZeros64 (createHash x)).foldr max 0

theorem length_raise (l : List Nat) (i r : Nat) : (raise l i r).length = l.length := by
  simp [raise]

theorem getElem?_raise (l : List Nat) (i r k : Nat) :
    (raise l i r)[k]? = if k = i then l[k]?.map (fun v => max v r) else l[k]? := by
  unfold raise
  rw [List.getElem?_set]
  by_cases hki : i = k
  · subst hki
    by_cases hlt : i < l.length
    · simp [hlt, List.getD_eq_getElem?_getD]
    · simp [hlt, List.getElem?_eq_none (Nat.le_of_not_lt hlt)]
  · have hik : ¬ k = i := fun e => hki e.symm
    simp [hki, hik]

theorem getD_raise (l : List Nat) (i r k : Nat) :
    (raise l i r).getD k 0 = if k = i ∧ i < l.length then max (l.getD k 0) r else l.getD k 0 := by
  rw [List.getD_eq_getElem?_getD, getElem?_raise, List.getD_eq_getElem?_getD]
  by_cases hki : k = i
  · subst hki
    by_cases hlt : k < l.length
    · simp [hlt]
    · simp [hlt, List.getElem?_eq_none (Nat.le_of_not_lt hlt)]
  · simp [hki]

theorem raise_comm (l : List Nat) (i a j b : Nat) :
    raise (raise l i a) j b = raise (raise l j b) i a := by
  apply List.ext_getElem?
  intro k
  simp only [getElem?_raise]
  cases hl : l[k]? <;> split_ifs <;> simp [max_assoc, max_comm a b]

theorem raise_idem (l : List Nat) (i r : Nat) : raise (raise l i r) i r = raise l i r := by
  apply List.ext_getElem?
  intro k
  simp only [getElem?_raise]
  cases hl : l[k]? <;> split_ifs <;> simp

theorem set_getElem_same (l : List Nat) (i : Nat) (h : i < l.length) : l.set i l[i] = l := by
  apply List.ext_getElem?
  intro k
  rw [List.getElem?_set]
  by_cases hik : i = k
  · subst hik
    simp [h, List.getElem?_eq_getElem h]
  · simp [hik]

/-- The method body in closed form: a valid index raises one register, an invalid one panics. -/
theorem AddHash_eq (h : HLL) (hashval : Nat) :
    AddHash h hashval =
      if registerIndex h.p hashval < h.registers.length then
        some { h with registers := raise h.registers (registerIndex h.p hashval) (rank h.p hashval) }
      else none := by
  unfold AddHash
  by_cases hlt : registerIndex h.p hashval < h.registers.length
  · simp only [hlt, dite_true, if_true]
    by_cases hr : rank h.p hashval > h.registers[registerIndex h.p hashval]
    · have hmax : max (h.registers.getD (registerIndex h.p hashval) 0) (rank h.p hashval)
          = rank h.p hashval := by
        rw [List.getD_eq_getElem _ _ hlt]
        exact max_eq_right (Nat.le_of_lt hr)
      simp only [hr, if_true, raise, hmax]
    · have hmax : max (h.registers.getD (registerIndex h.p hashval) 0) (rank h.p hashval)
          = h.registers[registerIndex h.p hashval] := by
        rw [List.getD_eq_getElem _ _ hlt]
        exact max_eq_left (Nat.le_of_not_lt hr)
      simp only [hr, if_false, raise, hmax, set_getElem_same _ _ hlt]
  · simp [hlt]

/-- Every FNV state stays inside 64 bits. -/
theorem fnvWrite_lt (data : List Byte) (hash : Nat) (hh : hash < 2 ^ 64) :
    fnvWrite hash data < 2 ^ 64 := by
  unfold fnvWrite
  induction data generalizing hash with
  | nil => simpa using hh
  | cons c cs ih =>
    rw [List.foldl_cons]
    apply ih
    apply Nat.xor_lt_two_pow
    · exact Nat.mod_lt _ (by norm_num)
    · exact lt_trans c.isLt (by norm_num)

theorem createHash_lt (data : List Byte) : createHash data < 2 ^ 64 :=
  fnvWrite_lt data offset64 (by norm_num [offset64])

theorem numHashBits_eq (p : Nat) (hp : p ≤ 64) : numHashBits p = 64 - p := by
  unfold numHashBits bitUsed
  omega

/-- With at most 63 index bits, the index of a 64-bit hash is below `2 ^ p`. -/
theorem registerIndex_lt (p hashval : Nat) (hp : p ≤ 63) (hh : hashval < 2 ^ 64) :
    registerIndex p hashval < 2 ^ p := by
  unfold registerIndex
  rw [numHashBits_eq p (by omega), Nat.shiftRight_eq_div_pow]
  apply Nat.div_lt_of_lt_mul
  rw [← pow_add]
  have : 64 - p + p = 64 := by omega
  rw [this]
  exact hh

theorem one_le_rank (p hashval : Nat) : 1 ≤ rank p hashval := by
  unfold rank leftmostActiveBit
  omega

/-- The constructor succeeds for every precision up to 45 (`8 * 2 ^ 45 = maxAlloc`) and
returns the all-zero array. -/
theorem New_eq (p : Nat) (hp : p ≤ 45) :
    New p = some { registers := List.replicate (2 ^ p) 0, m := 2 ^ p, p := p } := by
  have h63 : 2 ^ p < 2 ^ 63 := Nat.pow_lt_pow_right (by norm_num) (by omega)
  have h64 : 2 ^ p < 2 ^ 64 := lt_trans h63 (by norm_num)
  have h45 : 2 ^ p ≤ 2 ^ 45 := Nat.pow_le_pow_right (by norm_num) hp
  unfold New toInt64
  simp only [Nat.one_shiftLeft, Nat.mod_eq_of_lt h64, h63, if_true, Int.toNat_ofNat]
  have hcond : ¬ (((2 ^ p : Nat) : Int) < 0 ∨ uintSize * 2 ^ p ≥ 2 ^ 64 ∨
      uintSize * 2 ^ p > maxAlloc) := by
    unfold uintSize maxAlloc
    rintro (h | h | h)
    · exact absurd h (not_lt.mpr (Int.ofNat_nonneg _))
    · omega
    · omega
  rw [if_neg hcond]
  have hp256 : p % 256 = p := Nat.mod_eq_of_lt (by omega)
  simp only [hp256]

theorem Add_eq (h : HLL) (x : List Byte) :
    Add h x =
      if registerIndex h.p (createHash x) < h.registers.length then
        some ⟨raise h.registers (registerIndex h.p (createHash x)) (rank h.p (createHash x)),
          h.m, h.p⟩
      else none := by
  unfold Add
  exact AddHash_eq h (createHash x)

/-- On a well-formed state `Add` returns. -/
theorem Add_isSome (h : HLL) (x : List Byte) (hwf : WellFormed h) :
    Add h x = some ⟨raise h.registers (registerIndex h.p (createHash x))
      (rank h.p (createHash x)), h.m, h.p⟩ := by
  rw [Add_eq, if_pos]
  rw [hwf.2]
  exact registerIndex_lt _ _ hwf.1 (createHash_lt x)

/-- A run of `Add` calls in closed form: it returns exactly when every index is valid. -/
theorem AddAll_eq (h : HLL) (xs : List (List Byte)) :
    AddAll h xs =
      if ∀ x ∈ xs, registerIndex h.p (createHash x) < h.registers.length then
        some { h with registers := raiseAll h.p h.registers xs }
      else none := by
  induction xs generalizing h with
  | nil => simp [AddAll, raiseAll]
  | cons x xs ih =>
    rw [AddAll, Add_eq]
    by_cases hx : registerIndex h.p (createHash x) < h.registers.length
    · rw [if_pos hx, Option.some_bind, ih]
      simp only [length_raise, List.mem_cons, forall_eq_or_imp, hx, true_and]
      rfl
    · rw [if_neg hx, Option.none_bind, if_neg]
      intro hall
      exact hx (hall x (List.mem_cons_self _ _))

theorem length_raiseAll (p : Nat) (l : List Nat) (xs : List (List Byte)) :
    (raiseAll p l xs).length = l.length := by
  unfold raiseAll
  induction xs generalizing l with
  | nil => rfl
  | cons x xs ih => rw [List.foldl_cons, ih, length_raise]

theorem AddAll_wellFormed (h : HLL) (xs : List (List Byte)) (hwf : WellFormed h) :
    AddAll h xs = some { h with registers := raiseAll h.p h.registers xs } := by
  rw [AddAll_eq, if_pos]
  intro x _
  rw [hwf.2]
  exact registerIndex_lt _ _ hwf.1 (createHash_lt x)

theorem maxRankAt_cons (p i : Nat) (x : List Byte) (xs : List (List Byte)) :
    maxRankAt p i (x :: xs) =
      if registerIndex p (createHash x) = i then max (rank p (createHash x)) (maxRankAt p i xs)
      else maxRankAt p i xs := by
  unfold maxRankAt
  by_cases hx : registerIndex p (createHash x) = i
  · simp [List.filter_cons, hx]
  · simp [List.filter_cons, hx]

/-- Every register after a run of raises is the old value joined with the largest rank that
was sent to it. -/
theorem getElem?_raiseAll (p : Nat) (l : List Nat) (xs : List (List Byte)) (k : Nat) :
    (raiseAll p l xs)[k]? = l[k]?.map fun v => max v (maxRankAt p k xs) := by
  induction xs generalizing l with
  | nil => cases hl : l[k]? <;> simp [raiseAll, maxRankAt, hl]
  | cons x xs ih =>
    have hstep : raiseAll p l (x :: xs)
        = raiseAll p (raise l (registerIndex p (createHash x)) (rank p (createHash x))) xs := rfl
    rw [hstep, ih, getElem?_raise, maxRankAt_cons]
    by_cases hx : k = registerIndex p (createHash x)
    · have hx2 : registerIndex p (createHash x) = k := hx.symm
      rw [if_pos hx, if_pos hx2]
      cases hl : l[k]? <;> simp [max_assoc]
    · have hx2 : ¬ registerIndex p (createHash x) = k := fun e => hx e.symm
      rw [if_neg hx, if_neg hx2]

theorem foldl_add_eq_sum (f : Nat → ℝ) (l : List Nat) (a : ℝ) :
    l.foldl (fun s v => s + f v) a = a + (l.map f).sum := by
  induction l generalizing a with
  | nil => simp
  | cons v vs ih => rw [List.foldl_cons, ih, List.map_cons, List.sum_cons, add_assoc]

/-- The accumulation loop of `Count` is the sum of `2 ^ (-v)` over the registers. -/
theorem harmonicSum_eq (l : List Nat) :
    harmonicSum l = (l.map fun v => ((2 : ℝ) ^ v)⁻¹).sum := by
  unfold harmonicSum
  have hf : (fun (sum : ℝ) (v : Nat) => sum + Real.rpow (Real.rpow 2 (v : ℝ)) (-1))
      = fun s v => s + ((2 : ℝ) ^ v)⁻¹ := by
    funext s v
    simp only [Real.rpow_eq_pow, Real.rpow_natCast, Real.rpow_neg_one]
  rw [hf, foldl_add_eq_sum, zero_add]

theorem foldl_count_eq (l : List Nat) (a : Nat) :
    l.foldl (fun c v => if v = 0 then c + 1 else c) a = a + l.count 0 := by
  induction l generalizing a with
  | nil => simp
  | cons v vs ih =>
    rw [List.foldl_cons, ih, List.count_cons]
    by_cases hv : v = 0
    · simp [hv]; omega
    · simp [hv]

/-- The counting loop of `Count` is the number of registers equal to `0`. -/
theorem zeroCount_eq (l : List Nat) : zeroCount l = l.count 0 := by
  unfold zeroCount
  rw [foldl_count_eq, zero_add]

theorem harmonicSum_replicate_zero (n : Nat) : harmonicSum (List.replicate n 0) = n := by
  rw [harmonicSum_eq]
  simp

theorem zeroCount_replicate_zero (n : Nat) : zeroCount (List.replicate n 0) = n := by
  rw [zeroCount_eq]
  simp

theorem inv_two_pow_antitone (a b : Nat) (hab : a ≤ b) :
    ((2 : ℝ) ^ b)⁻¹ ≤ ((2 : ℝ) ^ a)⁻¹ :=
  inv_anti₀ (by positivity) (pow_le_pow_right₀ (by norm_num) hab)

theorem harmonicSum_le_length (l : List Nat) : harmonicSum l ≤ (l.length : ℝ) := by
  rw [harmonicSum_eq]
  induction l with
  | nil => simp
  | cons v vs ih =>
    have hv : ((2 : ℝ) ^ v)⁻¹ ≤ 1 := by
      have := inv_two_pow_antitone 0 v (Nat.zero_le v)
      simpa using this
    simp only [List.map_cons, List.sum_cons, List.length_cons, Nat.cast_succ]
    linarith

theorem harmonicSum_pos (l : List Nat) (hne : 0 < l.length) : 0 < harmonicSum l := by
  rw [harmonicSum_eq]
  cases l with
  | nil => simp at hne
  | cons v vs =>
    have hv : (0 : ℝ) < ((2 : ℝ) ^ v)⁻¹ := by positivity
    have hrest : (0 : ℝ) ≤ (vs.map fun w => ((2 : ℝ) ^ w)⁻¹).sum := by
      apply List.sum_nonneg
      intro y hy
      obtain ⟨w, _, hw⟩ := List.mem_map.mp hy
      rw [← hw]
      positivity
    simp only [List.map_cons, List.sum_cons]
    linarith

theorem zeroCount_le_length (l : List Nat) : zeroCount l ≤ l.length := by
  rw [zeroCount_eq]
  exact List.count_le_length _ _

/-- A value between `n` and `n + 1` with `n` a `uint64` converts to `n`. -/
theorem toUint64_eq (x : ℝ) (n : Nat) (hlo : (n : ℝ) ≤ x) (hhi : x < (n : ℝ) + 1)
    (hn : n < 2 ^ 64) : toUint64 x = some n := by
  have h0 : (0 : ℝ) ≤ x := le_trans (Nat.cast_nonneg n) hlo
  have hn1 : n + 1 ≤ 2 ^ 64 := hn
  have hn2 : (n : ℝ) + 1 ≤ 2 ^ 64 := by exact_mod_cast hn1
  unfold toUint64
  rw [if_pos ⟨by linarith, by linarith⟩, (Nat.floor_eq_iff h0).mpr ⟨hlo, hhi⟩]

theorem toUint64_of_floor_lt (x : ℝ) (h0 : 0 ≤ x) (hlt : ⌊x⌋₊ < 2 ^ 64) :
    toUint64 x = some ⌊x⌋₊ :=
  toUint64_eq x _ (Nat.floor_le h0) (Nat.lt_floor_add_one x) hlt

/-- With at least one register the estimate is a finite number. -/
theorem estimate_eq (h : HLL) (hlen : 0 < h.registers.length) :
    estimate h = some (0.79402 * (h.m : ℝ) * (h.m : ℝ) / harmonicSum h.registers) := by
  unfold estimate
  rw [if_neg (ne_of_gt (harmonicSum_pos _ hlen))]

theorem estimate_nil (m p : Nat) : estimate ⟨[], m, p⟩ = none := by
  unfold estimate
  rw [if_pos]
  simp [harmonicSum]

/-- The linear-counting branch of `Count`. -/
theorem Count_linear (h : HLL) (est : ℝ) (he : estimate h = some est)
    (hle : est ≤ (h.m : ℝ) * 2.5) (hc : zeroCount h.registers ≠ 0) (hm : (h.m : ℝ) ≠ 0) :
    Count h = toUint64 ((h.m : ℝ) * Real.log ((h.m : ℝ) / (zeroCount h.registers : ℝ))) := by
  unfold Count
  rw [he]
  simp only [hle, if_true, hc, if_false, hm]

/-- The two branches of `Count` that return the raw estimate. -/
theorem Count_raw (h : HLL) (est : ℝ) (he : estimate h = some est)
    (hraw : ¬ est ≤ (h.m : ℝ) * 2.5 ∨ zeroCount h.registers = 0) :
    Count h = toUint64 est := by
  unfold Count
  rw [he]
  by_cases hle : est ≤ (h.m : ℝ) * 2.5
  · have hc : zeroCount h.registers = 0 := hraw.resolve_left (not_not.mpr hle)
    simp only [hle, if_true, hc]
  · simp only [hle, if_false]

/-- C1. Zero-state baseline: for every precision `p` with `1 ≤ p ≤ 16`, `New p` returns an
estimator whose registers are all `0`, whose raw estimate is `0.79402 * m` and so at most
`2.5 * m`, whose count of zero registers is `m`, and on which `Count` returns `0`. -/
theorem count_new_eq_zero (p : Nat) (hp1 : 1 ≤ p) (hp16 : p ≤ 16) :
    ∃ h, New p = some h ∧ (∀ v ∈ h.registers, v = 0) ∧
      estimate h = some (0.79402 * (h.m : ℝ)) ∧ 0.79402 * (h.m : ℝ) ≤ (h.m : ℝ) * 2.5 ∧
      zeroCount h.registers = h.m ∧ Count h = some 0 := by
  refine ⟨⟨List.replicate (2 ^ p) 0, 2 ^ p, p⟩, New_eq p (by omega), ?_⟩
  have hm : (0 : ℝ) < ((2 ^ p : Nat) : ℝ) := by exact_mod_cast Nat.pos_pow_of_pos p (by norm_num)
  have hlen : 0 < (List.replicate (2 ^ p) 0).length := by
    rw [List.length_replicate]
    exact Nat.pos_pow_of_pos p (by norm_num)
  have hest : estimate ⟨List.replicate (2 ^ p) 0, 2 ^ p, p⟩
      = some (0.79402 * ((2 ^ p : Nat) : ℝ)) := by
    have he : estimate ⟨List.replicate (2 ^ p) 0, 2 ^ p, p⟩
        = some (0.79402 * ((2 ^ p : Nat) : ℝ) * ((2 ^ p : Nat) : ℝ)
          / harmonicSum (List.replicate (2 ^ p) 0)) := estimate_eq _ hlen
    rw [he, harmonicSum_replicate_zero]
    congr 1
    field_simp
  have hle : 0.79402 * ((2 ^ p : Nat) : ℝ) ≤ ((2 ^ p : Nat) : ℝ) * 2.5 := by nlinarith
  have hc : zeroCount (List.replicate (2 ^ p) 0) = 2 ^ p := zeroCount_replicate_zero _
  have hc0 : zeroCount (List.replicate (2 ^ p) 0) ≠ 0 := by
    rw [hc]
    positivity
  refine ⟨fun v hv => (List.mem_replicate.mp hv).2, hest, hle, hc, ?_⟩
  rw [Count_linear _ _ hest hle hc0 (ne_of_gt hm)]
  show toUint64 (((2 ^ p : Nat) : ℝ)
    * Real.log (((2 ^ p : Nat) : ℝ) / ((zeroCount (List.replicate (2 ^ p) 0) : Nat) : ℝ))) = _
  rw [hc, div_self (ne_of_gt hm), Real.log_one, mul_zero]
  exact toUint64_eq 0 0 (by simp) (by simp) (by norm_num)

/-- C1 at precision 4. -/
theorem count_new_eq_zero_witness :
    ∃ h, New 4 = some h ∧ (∀ v ∈ h.registers, v = 0) ∧
      estimate h = some (0.79402 * (h.m : ℝ)) ∧ 0.79402 * (h.m : ℝ) ≤ (h.m : ℝ) * 2.5 ∧
      zeroCount h.registers = h.m ∧ Count h = some 0 :=
  count_new_eq_zero 4 (by decide) (by decide)

theorem maxRankAt_le_iff (p i : Nat) (xs : List (List Byte)) (b : Nat) :
    maxRankAt p i xs ≤ b ↔
      ∀ x ∈ xs, registerIndex p (createHash x) = i → rank p (createHash x) ≤ b := by
  induction xs with
  | nil => simp [maxRankAt]
  | cons x xs ih =>
    rw [maxRankAt_cons]
    by_cases hx : registerIndex p (createHash x) = i
    · rw [if_pos hx]
      simp only [max_le_iff, ih, List.mem_cons, forall_eq_or_imp, hx, true_imp_iff]
    · rw [if_neg hx]
      simp only [ih, List.mem_cons, forall_eq_or_imp, hx, false_imp_iff, true_and]

/-- The largest rank per index is a function of the set of (index, rank) pairs alone. -/
theorem maxRankAt_le_of_pairs (p i : Nat) (xs ys : List (List Byte))
    (hsub : ∀ pr, pr ∈ xs.map (indexRank p) → pr ∈ ys.map (indexRank p)) :
    maxRankAt p i xs ≤ maxRankAt p i ys := by
  rw [maxRankAt_le_iff]
  intro x hx hxi
  have hmem : indexRank p x ∈ ys.map (indexRank p) := hsub _ (List.mem_map_of_mem _ hx)
  obtain ⟨y, hy, hyx⟩ := List.mem_map.mp hmem
  have h1 : registerIndex p (createHash y) = registerIndex p (createHash x) :=
    congrArg Prod.fst hyx
  have h2 : rank p (createHash y) = rank p (createHash x) := congrArg Prod.snd hyx
  rw [← h2]
  exact (maxRankAt_le_iff p i ys _).mp le_rfl y hy (h1.trans hxi)

theorem raiseAll_congr_pairs (p : Nat) (l : List Nat) (xs ys : List (List Byte))
    (hset : ∀ pr, pr ∈ ys.map (indexRank p) ↔ pr ∈ xs.map (indexRank p)) :
    raiseAll p l ys = raiseAll p l xs := by
  apply List.ext_getElem?
  intro k
  rw [getElem?_raiseAll, getElem?_raiseAll]
  have hk : maxRankAt p k ys = maxRankAt p k xs :=
    le_antisymm (maxRankAt_le_of_pairs p k ys xs fun pr h => (hset pr).mp h)
      (maxRankAt_le_of_pairs p k xs ys fun pr h => (hset pr).mpr h)
  rw [hk]

theorem wellFormed_new (p : Nat) (hp : p ≤ 62) :
    WellFormed ⟨List.replicate (2 ^ p) 0, 2 ^ p, p⟩ :=
  ⟨by show p ≤ 63; omega, by simp⟩

/-- C2 (amended to `p ≤ 45`). Register characterisation: for every precision `p` with
`1 ≤ p ≤ 45` and every finite sequence `xs` of byte strings, `New p` returns an estimator, the
run of `Add` calls over `xs` returns, and in the final state each register `i < 2 ^ p` holds
the largest rank among the elements of `xs` whose index is `i` (and `0` when there is none);
any other sequence producing the same set of (index, rank) pairs ends in the same state. -/
theorem registers_hold_max_rank (p : Nat) (_hp1 : 1 ≤ p) (hp : p ≤ 45) (xs : List (List Byte)) :
    ∃ h0 h, New p = some h0 ∧ AddAll h0 xs = some h ∧ h.registers.length = 2 ^ p ∧
      (∀ i, i < 2 ^ p → h.registers[i]? = some (maxRankAt p i xs)) ∧
      (∀ ys, (∀ pr, pr ∈ ys.map (indexRank p) ↔ pr ∈ xs.map (indexRank p)) →
        AddAll h0 ys = some h) := by
  have hwf := wellFormed_new p (by omega)
  refine ⟨_, _, New_eq p hp, AddAll_wellFormed _ xs hwf, ?_, ?_, ?_⟩
  · simp [length_raiseAll]
  · intro i hi
    show (raiseAll p (List.replicate (2 ^ p) 0) xs)[i]? = some (maxRankAt p i xs)
    rw [getElem?_raiseAll, List.getElem?_replicate, if_pos hi]
    simp
  · intro ys hset
    rw [AddAll_wellFormed _ ys hwf]
    show some (HLL.mk (raiseAll p (List.replicate (2 ^ p) 0) ys) (2 ^ p) p) = _
    rw [raiseAll_congr_pairs p _ xs ys hset]

/-- C2 at precision 2 with the empty string added twice. -/
theorem registers_hold_max_rank_witness :
    ∃ h0 h, New 2 = some h0 ∧ AddAll h0 [[], []] = some h ∧ h.registers.length = 2 ^ 2 ∧
      (∀ i, i < 2 ^ 2 → h.registers[i]? = some (maxRankAt 2 i [[], []])) ∧
      (∀ ys, (∀ pr, pr ∈ ys.map (indexRank 2) ↔ pr ∈ [([] : List Byte), []].map (indexRank 2)) →
        AddAll h0 ys = some h) :=
  registers_hold_max_rank 2 (by decide) (by decide) [[], []]

/-- C2 fails as stated at `p = 46` and at `p = 63`: at 46 the byte size `8 * 2 ^ 46` exceeds
`maxAlloc`, at 63 the length `1<<63` overflows `int` to a negative value; in both cases
`New` panics in `makeslice` and there is no estimator whose registers could be
characterised. -/
theorem registers_hold_max_rank_fails_above_45 :
    (¬ ∃ h0 h, New 46 = some h0 ∧ AddAll h0 [] = some h ∧ h.registers.length = 2 ^ 46 ∧
      ∀ i, i < 2 ^ 46 → h.registers[i]? = some (maxRankAt 46 i [])) ∧
    ¬ ∃ h0 h, New 63 = some h0 ∧ AddAll h0 [] = some h ∧ h.registers.length = 2 ^ 63 ∧
      ∀ i, i < 2 ^ 63 → h.registers[i]? = some (maxRankAt 63 i []) := by
  have h46 : New 46 = none := by decide
  have h63 : New 63 = none := by decide
  constructor
  · rintro ⟨h0, h, hnew, _⟩
    rw [h46] at hnew
    exact Option.noConfusion hnew
  · rintro ⟨h0, h, hnew, _⟩
    rw [h63] at hnew
    exact Option.noConfusion hnew

/-- C3. Idempotence of duplicate adds: on every state and for every byte string `x`, `Add x`
followed by `Add x` gives exactly the result of a single `Add x` (the same register array,
`m` and `p`, or the same panic), hence the same `Count`; and on a well-formed state the
calls do return. -/
theorem add_twice_eq_add_once (h : HLL) (x : List Byte) :
    ((Add h x).bind fun h1 => Add h1 x) = Add h x ∧
      ((Add h x).bind fun h1 => Add h1 x).map Count = (Add h x).map Count ∧
      (WellFormed h → ∃ h1, Add h x = some h1 ∧ Add h1 x = some h1) := by
  have hkey : ((Add h x).bind fun h1 => Add h1 x) = Add h x := by
    rw [Add_eq]
    by_cases hlt : registerIndex h.p (createHash x) < h.registers.length
    · rw [if_pos hlt, Option.some_bind, Add_eq]
      simp only [length_raise, hlt, if_true, raise_idem]
    · rw [if_neg hlt, Option.none_bind]
  refine ⟨hkey, by rw [hkey], fun hwf => ?_⟩
  refine ⟨_, Add_isSome h x hwf, ?_⟩
  have h2 := hkey
  rw [Add_isSome h x hwf, Option.some_bind] at h2
  exact h2

/-- C3 on the four-register state of precision 2, adding the empty string. -/
theorem add_twice_eq_add_once_witness :
    ((Add ⟨[0, 0, 0, 0], 4, 2⟩ []).bind fun h1 => Add h1 []) = Add ⟨[0, 0, 0, 0], 4, 2⟩ [] ∧
      ((Add ⟨[0, 0, 0, 0], 4, 2⟩ []).bind fun h1 => Add h1 []).map Count
        = (Add ⟨[0, 0, 0, 0], 4, 2⟩ []).map Count ∧
      (WellFormed ⟨[0, 0, 0, 0], 4, 2⟩ →
        ∃ h1, Add ⟨[0, 0, 0, 0], 4, 2⟩ [] = some h1 ∧ Add h1 [] = some h1) :=
  add_twice_eq_add_once ⟨[0, 0, 0, 0], 4, 2⟩ []

theorem raiseAll_perm (p : Nat) (l : List Nat) (xs ys : List (List Byte))
    (hperm : List.Perm xs ys) : raiseAll p l xs = raiseAll p l ys := by
  unfold raiseAll
  exact hperm.foldl_eq' (fun a _ b _ z => raise_comm z _ _ _ _) l

/-- C4. Order independence: on every state, for every list of byte strings and every
permutation of it, the two runs of `Add` calls give the same result (the same register
array, `m` and `p`, or a panic in both), hence the same `Count`; and on a well-formed state
both runs do return. -/
theorem add_order_independent (h : HLL) (xs ys : List (List Byte)) (hperm : List.Perm xs ys) :
    AddAll h xs = AddAll h ys ∧ (AddAll h xs).map Count = (AddAll h ys).map Count ∧
      (WellFormed h → ∃ h1, AddAll h xs = some h1 ∧ AddAll h ys = some h1) := by
  have hkey : AddAll h xs = AddAll h ys := by
    rw [AddAll_eq, AddAll_eq, raiseAll_perm h.p h.registers xs ys hperm]
    have hiff : (∀ x ∈ xs, registerIndex h.p (createHash x) < h.registers.length) ↔
        ∀ x ∈ ys, registerIndex h.p (createHash x) < h.registers.length :=
      ⟨fun hx y hy => hx y (hperm.mem_iff.mpr hy), fun hy x hx => hy x (hperm.mem_iff.mp hx)⟩
    simp only [hiff]
  refine ⟨hkey, by rw [hkey], fun hwf => ⟨_, AddAll_wellFormed h xs hwf, ?_⟩⟩
  rw [← hkey]
  exact AddAll_wellFormed h xs hwf

/-- C4 on the four-register state of precision 2 with two strings swapped. -/
theorem add_order_independent_witness :
    AddAll ⟨[0, 0, 0, 0], 4, 2⟩ [[1], [2]] = AddAll ⟨[0, 0, 0, 0], 4, 2⟩ [[2], [1]] ∧
      (AddAll ⟨[0, 0, 0, 0], 4, 2⟩ [[1], [2]]).map Count
        = (AddAll ⟨[0, 0, 0, 0], 4, 2⟩ [[2], [1]]).map Count ∧
      (WellFormed ⟨[0, 0, 0, 0], 4, 2⟩ →
        ∃ h1, AddAll ⟨[0, 0, 0, 0], 4, 2⟩ [[1], [2]] = some h1 ∧
          AddAll ⟨[0, 0, 0, 0], 4, 2⟩ [[2], [1]] = some h1) :=
  add_order_independent ⟨[0, 0, 0, 0], 4, 2⟩ [[1], [2]] [[2], [1]] (List.Perm.swap _ _ _)

theorem getD_le_getD_raiseAll (p : Nat) (l : List Nat) (xs : List (List Byte)) (i : Nat) :
    l.getD i 0 ≤ (raiseAll p l xs).getD i 0 := by
  rw [List.getD_eq_getElem?_getD, List.getD_eq_getElem?_getD, getElem?_raiseAll]
  cases hl : l[i]? <;> simp

/-- C5. Monotonic registers: on every state, for every byte string `x` and every index `i`,
a returning `Add x` leaves the array length unchanged and register `i` at least as large as
before; the same holds over any run of `Add` calls; and on a well-formed state every run
does return. -/
theorem registers_monotone (h : HLL) (i : Nat) :
    (∀ x h1, Add h x = some h1 →
      h1.registers.length = h.registers.length ∧ h.registers.getD i 0 ≤ h1.registers.getD i 0) ∧
    (∀ xs h2, AddAll h xs = some h2 →
      h2.registers.length = h.registers.length ∧ h.registers.getD i 0 ≤ h2.registers.getD i 0) ∧
    (WellFormed h → ∀ xs, ∃ h2, AddAll h xs = some h2) := by
  have hrun : ∀ xs h2, AddAll h xs = some h2 →
      h2.registers.length = h.registers.length ∧
        h.registers.getD i 0 ≤ h2.registers.getD i 0 := by
    intro xs h2 hrun
    rw [AddAll_eq] at hrun
    split_ifs at hrun with hall
    have h2eq : h2 = ⟨raiseAll h.p h.registers xs, h.m, h.p⟩ := (Option.some.inj hrun).symm
    subst h2eq
    exact ⟨length_raiseAll _ _ _, getD_le_getD_raiseAll _ _ _ _⟩
  refine ⟨fun x h1 hadd => hrun [x] h1 ?_, hrun, fun hwf xs => ⟨_, AddAll_wellFormed h xs hwf⟩⟩
  simp [AddAll, hadd]

/-- C5 on the four-register state of precision 2: adding the empty string raises register 3
from 0 to 3. -/
theorem registers_monotone_witness :
    Add ⟨[0, 0, 0, 0], 4, 2⟩ [] = some ⟨[0, 0, 0, 3], 4, 2⟩ ∧
      ([0, 0, 0, 0] : List Nat).getD 3 0 ≤ ([0, 0, 0, 3] : List Nat).getD 3 0 :=
  ⟨by decide, ((registers_monotone ⟨[0, 0, 0, 0], 4, 2⟩ 3).1 [] ⟨[0, 0, 0, 3], 4, 2⟩
    (by decide)).2⟩

theorem bitLength_le (fuel x : Nat) : bitLength fuel x ≤ fuel := by
  induction fuel generalizing x with
  | zero => simp [bitLength]
  | succ n ih =>
    unfold bitLength
    split_ifs
    · omega
    · have := ih (x / 2)
      omega

/-- With enough fuel, `x` fits into `bitLength fuel x` binary digits. -/
theorem lt_two_pow_bitLength (fuel x : Nat) (hx : x < 2 ^ fuel) : x < 2 ^ bitLength fuel x := by
  induction fuel generalizing x with
  | zero => simp [bitLength] at hx ⊢; omega
  | succ n ih =>
    unfold bitLength
    split_ifs with h0
    · subst h0; simp
    · have hhalf : x / 2 < 2 ^ n := by
        rw [pow_succ] at hx
        omega
      have := ih (x / 2) hhalf
      rw [pow_succ]
      omega

theorem remainingBits_lt (p hashval : Nat) : remainingBits p hashval < 2 ^ 64 :=
  Nat.mod_lt _ (by norm_num)

theorem two_pow_dvd_remainingBits (p hashval : Nat) (hp : p ≤ 63) :
    2 ^ p ∣ remainingBits p hashval := by
  unfold remainingBits
  have hp256 : p % 256 = p := Nat.mod_eq_of_lt (by omega)
  rw [hp256, Nat.shiftLeft_eq]
  have h64 : 2 ^ p ∣ 2 ^ 64 := pow_dvd_pow 2 (by omega)
  exact (Nat.dvd_mod_iff h64).mpr (Dvd.intro_left _ rfl)

/-- What the rank really ranges over: at most `64 - p` when some remaining bit is set, and
`65` when the remaining bits are all zero. -/
theorem rank_range (p hashval : Nat) (hp : p ≤ 63) :
    (remainingBits p hashval ≠ 0 → rank p hashval ≤ 64 - p) ∧
      (remainingBits p hashval = 0 → rank p hashval = 65) := by
  constructor
  · intro hne
    have hge : 2 ^ p ≤ remainingBits p hashval :=
      Nat.le_of_dvd (Nat.pos_of_ne_zero hne) (two_pow_dvd_remainingBits p hashval hp)
    have hlt := lt_two_pow_bitLength 64 _ (remainingBits_lt p hashval)
    have hpl : p < bitLength 64 (remainingBits p hashval) :=
      (Nat.pow_lt_pow_iff_right (by norm_num : 1 < 2)).mp (lt_of_le_of_lt hge hlt)
    have hle := bitLength_le 64 (remainingBits p hashval)
    unfold rank leftmostActiveBit LeadingZeros64 Len64
    omega
  · intro h0
    unfold rank
    rw [h0]
    rfl

theorem New_16 : New 16 = some ⟨List.replicate 65536 0, 65536, 16⟩ := by
  have h := New_eq 16 (by norm_num)
  norm_num at h
  exact h

/-- C6 (the rank bound fails in the code). At precision 16 the string `U8qXtjFA` hashes to
`0xba31000000000000`: its 48 remaining bits are all zero, `leftmostActiveBit` counts the 16
shifted-in zeros as well, and the rank is `65`, above the bound `64 - 16 + 1 = 49`; `Add`
stores that `65` in register `0xba31 = 47665` of `New 16`. -/
theorem rank_exceeds_bound :
    createHash zeroSuffix = 0xba31000000000000 ∧
      rank 16 (createHash zeroSuffix) = 65 ∧
      ¬ rank 16 (createHash zeroSuffix) ≤ 64 - 16 + 1 ∧
      ∃ h0 h1, New 16 = some h0 ∧ Add h0 zeroSuffix = some h1 ∧
        h1.registers[47665]? = some 65 := by
  have hhash : createHash zeroSuffix = 0xba31000000000000 := by decide
  have hrank : rank 16 0xba31000000000000 = 65 := by decide
  have hidx : registerIndex 16 0xba31000000000000 = 47665 := by decide
  refine ⟨hhash, by rw [hhash, hrank], by rw [hhash, hrank]; decide, ?_⟩
  have hwf : WellFormed ⟨List.replicate 65536 0, 65536, 16⟩ :=
    ⟨by decide, by show (List.replicate 65536 0).length = 2 ^ 16; rw [List.length_replicate]; norm_num⟩
  refine ⟨_, _, New_16, Add_isSome _ zeroSuffix hwf, ?_⟩
  show (raise (List.replicate 65536 0) (registerIndex 16 (createHash zeroSuffix))
    (rank 16 (createHash zeroSuffix)))[47665]? = some 65
  rw [hhash, hrank, hidx, getElem?_raise, if_pos rfl, List.getElem?_replicate,
    if_pos (by norm_num)]
  rfl

/-- C7 (amended to `0 < precision ≤ 45`). `Add` never fails: `New precision` returns an
estimator, and after any run of `Add` calls on it, for every byte sequence `data` (the empty
one included) the register index that `Add` computes is a valid position of the register
array and `Add` returns. -/
theorem add_never_fails (precision : Nat) (_hpos : 0 < precision) (hle : precision ≤ 45)
    (xs : List (List Byte)) (data : List Byte) :
    ∃ h0 h1 h2, New precision = some h0 ∧ AddAll h0 xs = some h1 ∧
      registerIndex h1.p (createHash data) < h1.registers.length ∧ Add h1 data = some h2 := by
  have hwf := wellFormed_new precision (by omega)
  have hwf1 : WellFormed ⟨raiseAll precision (List.replicate (2 ^ precision) 0) xs,
      2 ^ precision, precision⟩ := ⟨hwf.1, by simp [length_raiseAll]⟩
  refine ⟨_, _, _, New_eq precision hle, AddAll_wellFormed _ xs hwf, ?_, Add_isSome _ data hwf1⟩
  show registerIndex precision (createHash data)
    < (raiseAll precision (List.replicate (2 ^ precision) 0) xs).length
  rw [hwf1.2]
  exact registerIndex_lt _ _ hwf.1 (createHash_lt data)

/-- C7 at precision 4, adding the empty byte sequence to the fresh estimator. -/
theorem add_never_fails_witness :
    ∃ h0 h1 h2, New 4 = some h0 ∧ AddAll h0 [] = some h1 ∧
      registerIndex h1.p (createHash []) < h1.registers.length ∧ Add h1 [] = some h2 :=
  add_never_fails 4 (by decide) (by decide) [] []

/-- C7 fails as stated at precisions 46, 63 and 64: `New 46` panics (the byte size
`8 * 2 ^ 46` exceeds `maxAlloc`), `New 63` panics (negative `make` length), and `New 64`
returns an estimator with no register at all, on which `Add` of the empty byte sequence
indexes out of range. -/
theorem add_fails_at_46_63_and_64 :
    New 46 = none ∧ New 63 = none ∧
      ∃ h, New 64 = some h ∧ h.registers.length = 0 ∧
        ¬ registerIndex h.p (createHash []) < h.registers.length ∧ Add h [] = none :=
  ⟨by decide, by decide, ⟨[], 0, 64⟩, by decide, by decide, by decide, by decide⟩

theorem specSum_eq (l : List Nat) : specSum l = harmonicSum l := by
  rw [harmonicSum_eq]
  unfold specSum
  congr 1
  apply List.map_congr_left
  intro v _
  rw [zpow_neg, zpow_natCast]

theorem specZeros_eq (l : List Nat) : specZeros l = zeroCount l := by
  rw [zeroCount_eq]
  unfold specZeros
  rw [List.count, List.countP_eq_length_filter]
  congr 1

theorem specRaw_eq (h : HLL) (hm : h.m = h.registers.length) :
    specRaw h.registers
      = 0.79402 * (h.m : ℝ) * (h.m : ℝ) / harmonicSum h.registers := by
  unfold specRaw
  rw [specSum_eq, ← hm, pow_two, mul_assoc]

/-- C8 (amended: at least one register, value below `2 ^ 64`). The reconstruction formula,
float arithmetic read as exact real arithmetic: for every estimator with `m ≥ 1` registers
(the field `m` being their number), `Count` returns `floor (m * ln (m / c))` when
`raw ≤ 2.5 * m` and `c > 0`, and `floor raw` otherwise, provided that value is below
`2 ^ 64`; here `raw = 0.79402 * m ^ 2 / sum`, `sum` is the sum of `2 ^ (-registers[i])` and
`c` the number of registers equal to `0`. -/
theorem count_eq_countSpec (h : HLL) (hm : h.m = h.registers.length)
    (hpos : 0 < h.registers.length) (hrange : CountSpec h.registers < 2 ^ 64) :
    Count h = some (CountSpec h.registers) := by
  have he := estimate_eq h hpos
  have hsum := harmonicSum_pos h.registers hpos
  have hraw := specRaw_eq h hm
  have hmR : (h.m : ℝ) = (h.registers.length : ℝ) := by rw [hm]
  have hm0 : (h.m : ℝ) ≠ 0 := by
    rw [hmR]
    exact_mod_cast (Nat.pos_iff_ne_zero.mp hpos)
  have hest0 : (0 : ℝ) ≤ 0.79402 * (h.m : ℝ) * (h.m : ℝ) / harmonicSum h.registers :=
    div_nonneg (by positivity) (le_of_lt hsum)
  unfold CountSpec at hrange ⊢
  rw [hraw, specZeros_eq, mul_comm (2.5 : ℝ), ← hmR] at hrange ⊢
  by_cases hle : 0.79402 * (h.m : ℝ) * (h.m : ℝ) / harmonicSum h.registers ≤ (h.m : ℝ) * 2.5
  · by_cases hc : zeroCount h.registers = 0
    · have hcond : ¬ (0.79402 * (h.m : ℝ) * (h.m : ℝ) / harmonicSum h.registers
          ≤ (h.m : ℝ) * 2.5 ∧ zeroCount h.registers > 0) := by
        rintro ⟨_, hgt⟩
        omega
      rw [if_neg hcond] at hrange ⊢
      rw [Count_raw h _ he (Or.inr hc)]
      exact toUint64_of_floor_lt _ hest0 hrange
    · have hcpos : zeroCount h.registers > 0 := Nat.pos_of_ne_zero hc
      rw [if_pos ⟨hle, hcpos⟩] at hrange ⊢
      rw [Count_linear h _ he hle hc hm0]
      apply toUint64_of_floor_lt _ _ hrange
      have hcR : (0 : ℝ) < (zeroCount h.registers : ℝ) := by exact_mod_cast hcpos
      have hcle : (zeroCount h.registers : ℝ) ≤ (h.m : ℝ) := by
        rw [hmR]
        exact_mod_cast zeroCount_le_length h.registers
      have hone : (1 : ℝ) ≤ (h.m : ℝ) / (zeroCount h.registers : ℝ) := by
        rw [le_div_iff₀ hcR]
        linarith
      have hmnn : (0 : ℝ) ≤ (h.m : ℝ) := Nat.cast_nonneg _
      exact mul_nonneg hmnn (Real.log_nonneg hone)
  · have hcond : ¬ (0.79402 * (h.m : ℝ) * (h.m : ℝ) / harmonicSum h.registers
        ≤ (h.m : ℝ) * 2.5 ∧ zeroCount h.registers > 0) := fun hh => hle hh.1
    rw [if_neg hcond] at hrange ⊢
    rw [Count_raw h _ he (Or.inl hle)]
    exact toUint64_of_floor_lt _ hest0 hrange

theorem countSpec_singleton_one : CountSpec [1] = 1 := by
  have hz : ¬ (specRaw [1] ≤ 2.5 * (([1] : List Nat).length : ℝ) ∧ specZeros [1] > 0) := by
    rintro ⟨_, hgt⟩
    revert hgt
    decide
  have hraw : specRaw [1] = 1.58804 := by
    unfold specRaw specSum
    norm_num
  unfold CountSpec
  rw [if_neg hz, hraw, Nat.floor_eq_iff (by norm_num)]
  constructor <;> norm_num

/-- C8 on the one-register state holding rank 1, where `Count` is `floor 1.58804 = 1`. -/
theorem count_eq_countSpec_witness :
    Count ⟨[1], 1, 0⟩ = some (CountSpec [1]) :=
  count_eq_countSpec ⟨[1], 1, 0⟩ rfl (by decide) (by rw [countSpec_singleton_one]; norm_num)

theorem estimate_singleton_65 : estimate ⟨[65], 1, 0⟩ = some (0.79402 * 2 ^ 65) := by
  have he : estimate ⟨[65], 1, 0⟩
      = some (0.79402 * ((1 : Nat) : ℝ) * ((1 : Nat) : ℝ) / harmonicSum [65]) :=
    estimate_eq _ (by decide)
  have hsum : harmonicSum [65] = ((2 : ℝ) ^ 65)⁻¹ := by
    rw [harmonicSum_eq]
    simp
  rw [he, hsum]
  congr 1
  norm_num

/-- C8 fails as stated on the one-register estimator holding rank 65 (what `New 0` becomes
after `Add` of an element with hash `0`) and on the no-register estimator that `New 64`
returns: in the first `floor raw` is at least `2 ^ 64`, no `uint64`, and the conversion is
implementation-dependent; in the second the sum is `0` and `raw` is `NaN`. -/
theorem count_ne_countSpec_out_of_range :
    New 0 = some ⟨[0], 1, 0⟩ ∧ AddHash ⟨[0], 1, 0⟩ 0 = some ⟨[65], 1, 0⟩ ∧
      2 ^ 64 ≤ CountSpec [65] ∧ Count ⟨[65], 1, 0⟩ = none ∧
      Count ⟨[65], 1, 0⟩ ≠ some (CountSpec [65]) ∧
      New 64 = some ⟨[], 0, 64⟩ ∧ Count ⟨[], 0, 64⟩ = none := by
  have hbig : (2 : ℝ) ^ 64 ≤ 0.79402 * 2 ^ 65 := by norm_num
  have hcount : Count ⟨[65], 1, 0⟩ = none := by
    rw [Count_raw _ _ estimate_singleton_65 (Or.inl (by norm_num))]
    unfold toUint64
    rw [if_neg]
    rintro ⟨_, hlt⟩
    linarith
  have hspec : 2 ^ 64 ≤ CountSpec [65] := by
    have hraw : specRaw [65] = 0.79402 * 2 ^ 65 := by
      unfold specRaw specSum
      norm_num
    have hz : ¬ (specRaw [65] ≤ 2.5 * (([65] : List Nat).length : ℝ) ∧ specZeros [65] > 0) := by
      rintro ⟨_, hgt⟩
      revert hgt
      decide
    unfold CountSpec
    rw [if_neg hz, hraw]
    apply Nat.le_floor
    exact_mod_cast hbig
  refine ⟨by decide, by decide, hspec, hcount, by rw [hcount]; exact Option.noConfusion,
    by decide, ?_⟩
  unfold Count
  rw [estimate_nil]

/-- C9 (amended to `p ≤ 45`). Size invariant: for every precision `p` with `1 ≤ p ≤ 45`,
`New p` returns an estimator with `m = 2 ^ p`, `len(registers) = m` and all registers `0`;
every returning `Add` preserves `m`, `p` and `len(registers)`; and every run of `Add` calls on
the new estimator returns a state with `m = 2 ^ p` and `len(registers) = m`. -/
theorem size_invariant (p : Nat) (_hp1 : 1 ≤ p) (hp : p ≤ 45) :
    ∃ h0, New p = some h0 ∧ h0.m = 2 ^ p ∧ h0.p = p ∧ h0.registers.length = h0.m ∧
      (∀ v ∈ h0.registers, v = 0) ∧
      (∀ h x h1, Add h x = some h1 →
        h1.m = h.m ∧ h1.p = h.p ∧ h1.registers.length = h.registers.length) ∧
      (∀ xs, ∃ h, AddAll h0 xs = some h ∧ h.p = p ∧ h.m = 2 ^ h.p ∧
        h.registers.length = h.m) := by
  refine ⟨_, New_eq p hp, rfl, rfl, by simp, fun v hv => (List.mem_replicate.mp hv).2, ?_, ?_⟩
  · intro h x h1 hadd
    rw [Add_eq] at hadd
    split_ifs at hadd with hlt
    have h1eq := (Option.some.inj hadd).symm
    subst h1eq
    exact ⟨rfl, rfl, length_raise _ _ _⟩
  · intro xs
    refine ⟨_, AddAll_wellFormed _ xs (wellFormed_new p (by omega)), rfl, rfl, ?_⟩
    simp [length_raiseAll]

/-- C9 at precision 4. -/
theorem size_invariant_witness :
    ∃ h0, New 4 = some h0 ∧ h0.m = 2 ^ 4 ∧ h0.p = 4 ∧ h0.registers.length = h0.m ∧
      (∀ v ∈ h0.registers, v = 0) ∧
      (∀ h x h1, Add h x = some h1 →
        h1.m = h.m ∧ h1.p = h.p ∧ h1.registers.length = h.registers.length) ∧
      (∀ xs, ∃ h, AddAll h0 xs = some h ∧ h.p = 4 ∧ h.m = 2 ^ h.p ∧
        h.registers.length = h.m) :=
  size_invariant 4 (by decide) (by decide)

/-- C9 fails as stated at `p = 46` and at `p = 63`: `New` returns no estimator, because
`makeslice` panics, at 46 on a byte size above `maxAlloc` and at 63 on the negative `int`
length `1<<63` (the `uint64` field `m` alone would be `2 ^ 63`). -/
theorem size_invariant_fails_above_45 :
    (¬ ∃ h0, New 46 = some h0 ∧ h0.m = 2 ^ 46 ∧ h0.registers.length = h0.m) ∧
    ¬ ∃ h0, New 63 = some h0 ∧ h0.m = 2 ^ 63 ∧ h0.registers.length = h0.m := by
  have h46 : New 46 = none := by decide
  have h63 : New 63 = none := by decide
  constructor
  · rintro ⟨h0, hnew, _⟩
    rw [h46] at hnew
    exact Option.noConfusion hnew
  · rintro ⟨h0, hnew, _⟩
    rw [h63] at hnew
    exact Option.noConfusion hnew

theorem sum_map_set (f : Nat → ℝ) (l : List Nat) (i v : Nat) (hi : i < l.length) :
    ((l.set i v).map f).sum = (l.map f).sum - f (l.getD i 0) + f v := by
  induction l generalizing i with
  | nil => simp at hi
  | cons a t ih =>
    cases i with
    | zero =>
      simp only [List.set_cons_zero, List.map_cons, List.sum_cons, List.getD_cons_zero]
      ring
    | succ n =>
      have hn : n < t.length := by simpa using hi
      simp only [List.set_cons_succ, List.map_cons, List.sum_cons, ih n hn, List.getD_cons_succ]
      ring

theorem count_zero_set (l : List Nat) (i v : Nat) (hi : i < l.length) (hv : v ≠ 0)
    (h0 : l.getD i 0 = 0) : (l.set i v).count 0 + 1 = l.count 0 := by
  induction l generalizing i with
  | nil => simp at hi
  | cons a t ih =>
    cases i with
    | zero =>
      have ha : a = 0 := by simpa using h0
      subst ha
      simp [List.count_cons, hv]
    | succ n =>
      have hn : n < t.length := by simpa using hi
      have h0n : t.getD n 0 = 0 := by simpa using h0
      have := ih n hn h0n
      simp only [List.set_cons_succ, List.count_cons]
      omega

/-- Raising an empty register to a positive rank trades a summand `1` for `2 ^ (-r)` and
removes one zero register. -/
theorem raise_fresh (l : List Nat) (i r : Nat) (hi : i < l.length) (h0 : l.getD i 0 = 0)
    (hr : r ≠ 0) :
    harmonicSum (raise l i r) = harmonicSum l - 1 + ((2 : ℝ) ^ r)⁻¹ ∧
      zeroCount (raise l i r) + 1 = zeroCount l := by
  have hraise : raise l i r = l.set i r := by
    unfold raise
    rw [h0, Nat.zero_max]
  rw [hraise, harmonicSum_eq, harmonicSum_eq, zeroCount_eq, zeroCount_eq,
    sum_map_set _ l i r hi, h0]
  exact ⟨by simp, count_zero_set l i r hi hr h0⟩

/-- Raising a register to a rank it already holds changes nothing. -/
theorem raise_same (l : List Nat) (i r : Nat) (hle : r ≤ l.getD i 0) : raise l i r = l := by
  apply List.ext_getElem?
  intro k
  rw [getElem?_raise]
  by_cases hk : k = i
  · subst hk
    rw [if_pos rfl]
    rw [List.getD_eq_getElem?_getD] at hle
    cases hl : l[k]? with
    | none => rfl
    | some v =>
      rw [hl] at hle
      simp only [Option.map_some', Option.getD_some] at hle ⊢
      rw [max_eq_left hle]
  · rw [if_neg hk]

/-- The registers of the smoke test: five empty registers are raised to the ranks
4, 1, 1, 1, 3 and the repeated `Juli` changes nothing. -/
theorem testInputs_registers (l : List Nat) (hlen : l.length = 65536)
    (hget : ∀ k, l.getD k 0 = 0) :
    harmonicSum (raiseAll 16 l testInputs) = harmonicSum l - 5 + 27 / 16 ∧
      zeroCount (raiseAll 16 l testInputs) + 5 = zeroCount l := by
  have e1 : registerIndex 16 (createHash sigmaBalls) = 31839 := by decide
  have e2 : registerIndex 16 (createHash ridho) = 9205 := by decide
  have e3 : registerIndex 16 (createHash rizki) = 9103 := by decide
  have e4 : registerIndex 16 (createHash juli) = 52409 := by decide
  have e5 : registerIndex 16 (createHash siti) = 32011 := by decide
  have r1 : rank 16 (createHash sigmaBalls) = 4 := by decide
  have r2 : rank 16 (createHash ridho) = 1 := by decide
  have r3 : rank 16 (createHash rizki) = 1 := by decide
  have r4 : rank 16 (createHash juli) = 1 := by decide
  have r5 : rank 16 (createHash siti) = 3 := by decide
  have hall : raiseAll 16 l testInputs
      = raise (raise (raise (raise (raise (raise l 31839 4) 9205 1) 9103 1) 52409 1) 52409 1)
          32011 3 := by
    simp only [raiseAll, testInputs, List.foldl_cons, List.foldl_nil, e1, e2, e3, e4, e5,
      r1, r2, r3, r4, r5]
  have s1 := raise_fresh l 31839 4 (by omega) (hget _) (by norm_num)
  have g1 : ∀ k, k ≠ 31839 → (raise l 31839 4).getD k 0 = 0 := by
    intro k hk
    rw [getD_raise, if_neg (fun h => hk h.1), hget]
  have s2 := raise_fresh (raise l 31839 4) 9205 1 (by rw [length_raise]; omega)
    (g1 _ (by norm_num)) (by norm_num)
  have g2 : ∀ k, k ≠ 31839 → k ≠ 9205 → (raise (raise l 31839 4) 9205 1).getD k 0 = 0 := by
    intro k hk hk2
    rw [getD_raise, if_neg (fun h => hk2 h.1), g1 k hk]
  have s3 := raise_fresh (raise (raise l 31839 4) 9205 1) 9103 1
    (by rw [length_raise, length_raise]; omega) (g2 _ (by norm_num) (by norm_num)) (by norm_num)
  have g3 : ∀ k, k ≠ 31839 → k ≠ 9205 → k ≠ 9103 →
      (raise (raise (raise l 31839 4) 9205 1) 9103 1).getD k 0 = 0 := by
    intro k hk hk2 hk3
    rw [getD_raise, if_neg (fun h => hk3 h.1), g2 k hk hk2]
  have s4 := raise_fresh (raise (raise (raise l 31839 4) 9205 1) 9103 1) 52409 1
    (by rw [length_raise, length_raise, length_raise]; omega)
    (g3 _ (by norm_num) (by norm_num) (by norm_num)) (by norm_num)
  have g4 : ∀ k, k ≠ 31839 → k ≠ 9205 → k ≠ 9103 → k ≠ 52409 →
      (raise (raise (raise (raise l 31839 4) 9205 1) 9103 1) 52409 1).getD k 0 = 0 := by
    intro k hk hk2 hk3 hk4
    rw [getD_raise, if_neg (fun h => hk4 h.1), g3 k hk hk2 hk3]
  have hjuli : (raise (raise (raise (raise l 31839 4) 9205 1) 9103 1) 52409 1).getD 52409 0
      = 1 := by
    rw [getD_raise, if_pos ⟨rfl, by rw [length_raise, length_raise, length_raise]; omega⟩,
      g3 _ (by norm_num) (by norm_num) (by norm_num)]
    rfl
  have s5 : raise (raise (raise (raise (raise l 31839 4) 9205 1) 9103 1) 52409 1) 52409 1
      = raise (raise (raise (raise l 31839 4) 9205 1) 9103 1) 52409 1 :=
    raise_same _ _ _ (by rw [hjuli])
  have s6 := raise_fresh (raise (raise (raise (raise l 31839 4) 9205 1) 9103 1) 52409 1) 32011 3
    (by rw [length_raise, length_raise, length_raise, length_raise]; omega)
    (g4 _ (by norm_num) (by norm_num) (by norm_num) (by norm_num)) (by norm_num)
  rw [hall, s5]
  constructor
  · rw [s6.1, s4.1, s3.1, s2.1, s1.1]
    ring
  · have := s6.2
    have := s4.2
    have := s3.2
    have := s2.2
    have := s1.2
    omega

/-- Linear counting on 65531 empty registers out of 65536 lies in `[5, 6)`. -/
theorem linear_count_bounds :
    (5 : ℝ) ≤ 65536 * Real.log (65536 / 65531) ∧ 65536 * Real.log (65536 / 65531) < 6 := by
  have hlow := Real.one_sub_inv_le_log_of_pos (show (0 : ℝ) < 65536 / 65531 by norm_num)
  have hup := Real.log_le_sub_one_of_pos (show (0 : ℝ) < 65536 / 65531 by norm_num)
  constructor
  · have h1 : (1 : ℝ) - (65536 / 65531)⁻¹ = 5 / 65536 := by norm_num
    rw [h1] at hlow
    linarith
  · have h2 : (65536 : ℝ) / 65531 - 1 = 5 / 65531 := by norm_num
    rw [h2] at hup
    have h3 : (65536 : ℝ) * (5 / 65531) < 6 := by norm_num
    nlinarith

/-- C10. Canonical smoke test, float arithmetic read as exact real arithmetic: at precision 16,
after `Add` of `Sigma Balls`, `Ridho`, `Rizki`, `Juli`, `Juli`, `Siti` (hashed with FNV-1 as
`createHash` does), `Count` returns `5`. -/
theorem smoke_test_count :
    ∃ h0 h, New 16 = some h0 ∧ AddAll h0 testInputs = some h ∧ Count h = some 5 := by
  have hlen : (List.replicate 65536 0).length = 65536 := List.length_replicate _ _
  have hwf : WellFormed ⟨List.replicate 65536 0, 65536, 16⟩ :=
    ⟨by decide, by show (List.replicate 65536 0).length = 2 ^ 16; rw [hlen]; norm_num⟩
  refine ⟨_, _, New_16, AddAll_wellFormed _ testInputs hwf, ?_⟩
  have hget : ∀ k, (List.replicate 65536 0).getD k 0 = 0 := by
    intro k
    rw [List.getD_eq_getElem?_getD, List.getElem?_replicate]
    split_ifs <;> rfl
  obtain ⟨hsum, hzero⟩ := testInputs_registers (List.replicate 65536 0) hlen hget
  rw [harmonicSum_replicate_zero] at hsum
  rw [zeroCount_replicate_zero] at hzero
  have hz : zeroCount (raiseAll 16 (List.replicate 65536 0) testInputs) = 65531 := by omega
  have hlen2 : 0 < (raiseAll 16 (List.replicate 65536 0) testInputs).length := by
    rw [length_raiseAll, hlen]
    norm_num
  have he : estimate ⟨raiseAll 16 (List.replicate 65536 0) testInputs, 65536, 16⟩
      = some (0.79402 * ((65536 : Nat) : ℝ) * ((65536 : Nat) : ℝ)
        / harmonicSum (raiseAll 16 (List.replicate 65536 0) testInputs)) :=
    estimate_eq _ hlen2
  rw [hsum] at he
  have hle : (0.79402 : ℝ) * ((65536 : Nat) : ℝ) * ((65536 : Nat) : ℝ)
      / (((65536 : Nat) : ℝ) - 5 + 27 / 16) ≤ ((65536 : Nat) : ℝ) * 2.5 := by norm_num
  have hc : zeroCount (raiseAll 16 (List.replicate 65536 0) testInputs) ≠ 0 := by
    rw [hz]
    norm_num
  have hb := linear_count_bounds
  rw [Count_linear _ _ he hle hc (by norm_num)]
  show toUint64 (((65536 : Nat) : ℝ) * Real.log (((65536 : Nat) : ℝ)
    / ((zeroCount (raiseAll 16 (List.replicate 65536 0) testInputs) : Nat) : ℝ))) = _
  rw [hz]
  simp only [Nat.cast_ofNat]
  refine toUint64_eq _ 5 (by exact_mod_cast hb.1) ?_ (by norm_num)
  have hlt := hb.2
  norm_num
  linarith

theorem bitLength_zero (fuel : Nat) : bitLength fuel 0 = 0 := by
  cases fuel <;> simp [bitLength]

/-- A non-zero `x` reaches its top binary digit: `2 ^ (bitLength - 1) ≤ x`. -/
theorem two_pow_le_of_bitLength (fuel x : Nat) (hx : x < 2 ^ fuel) (h0 : x ≠ 0) :
    2 ^ (bitLength fuel x - 1) ≤ x := by
  induction fuel generalizing x with
  | zero =>
    simp at hx
    omega
  | succ n ih =>
    unfold bitLength
    rw [if_neg h0, Nat.add_sub_cancel]
    by_cases hh : x / 2 = 0
    · rw [hh, bitLength_zero, pow_zero]
      omega
    · have hhalf : x / 2 < 2 ^ n := by
        rw [pow_succ] at hx
        omega
      have hih := ih (x / 2) hhalf hh
      have hpos : 1 ≤ bitLength n (x / 2) := by
        cases n with
        | zero =>
          simp at hhalf
          omega
        | succ k =>
          unfold bitLength
          rw [if_neg hh]
          omega
      have hsplit : 2 ^ bitLength n (x / 2) = 2 ^ (bitLength n (x / 2) - 1) * 2 := by
        rw [← pow_succ, Nat.sub_add_cancel hpos]
      omega

/-- The value `LeadingZeros64 x` is the number of leading zero bits of the 64-bit value `x`:
`x` fits below bit `64 - z`, and bit `63 - z` is reached unless all 64 bits are zero. -/
theorem leadingZeros64_spec (x : Nat) (hx : x < 2 ^ 64) :
    LeadingZeros64 x ≤ 64 ∧ x < 2 ^ (64 - LeadingZeros64 x) ∧
      (LeadingZeros64 x < 64 → 2 ^ (63 - LeadingZeros64 x) ≤ x) := by
  have hle := bitLength_le 64 x
  have hlt := lt_two_pow_bitLength 64 x hx
  unfold LeadingZeros64 Len64
  refine ⟨Nat.sub_le _ _, ?_, ?_⟩
  · rw [Nat.sub_sub_self hle]
    exact hlt
  · intro hz
    have h0 : x ≠ 0 := by
      intro hx0
      rw [hx0, bitLength_zero] at hz
      omega
    have hlow := two_pow_le_of_bitLength 64 x hx h0
    have heq : 63 - (64 - bitLength 64 x) = bitLength 64 x - 1 := by omega
    rw [heq]
    exact hlow

theorem registerIndex_eq_div (p hashval : Nat) (hp : p ≤ 64) :
    registerIndex p hashval = hashval / 2 ^ (64 - p) := by
  unfold registerIndex
  rw [numHashBits_eq p hp, Nat.shiftRight_eq_div_pow]

theorem remainingBits_eq (p hashval : Nat) (hp : p ≤ 255) :
    remainingBits p hashval = (hashval * 2 ^ p) % 2 ^ 64 := by
  unfold remainingBits
  rw [Nat.mod_eq_of_lt (by omega : p < 256), Nat.shiftLeft_eq]

/-- C11. Update rule: for every precision `p` with `1 ≤ p ≤ 63`, every estimator state of that
precision (`2 ^ p` registers) and every byte string `x` with hash `h`, `Add x` returns, and
afterwards the register at index `h >> (64 - p) = h / 2 ^ (64 - p)` holds
`max (old value) rank`, where `rank = 1 + z` and `z` is the number of leading zero bits of the
64-bit value `h << p = (h * 2 ^ p) mod 2 ^ 64`. -/
theorem add_update_rule (p : Nat) (_hp1 : 1 ≤ p) (hp : p ≤ 63) (h : HLL) (hprec : h.p = p)
    (hlen : h.registers.length = 2 ^ p) (x : List Byte) :
    ∃ h1, Add h x = some h1 ∧
      registerIndex p (createHash x) = createHash x / 2 ^ (64 - p) ∧
      remainingBits p (createHash x) = (createHash x * 2 ^ p) % 2 ^ 64 ∧
      rank p (createHash x) = 1 + LeadingZeros64 (remainingBits p (createHash x)) ∧
      (LeadingZeros64 (remainingBits p (createHash x)) ≤ 64 ∧
        remainingBits p (createHash x)
          < 2 ^ (64 - LeadingZeros64 (remainingBits p (createHash x))) ∧
        (LeadingZeros64 (remainingBits p (createHash x)) < 64 →
          2 ^ (63 - LeadingZeros64 (remainingBits p (createHash x)))
            ≤ remainingBits p (createHash x))) ∧
      h1.registers[createHash x / 2 ^ (64 - p)]? =
        some (max (h.registers.getD (createHash x / 2 ^ (64 - p)) 0) (rank p (createHash x))) := by
  subst hprec
  have hwf : WellFormed h := ⟨hp, hlen⟩
  have hidx := registerIndex_eq_div h.p (createHash x) (by omega)
  have hlt : createHash x / 2 ^ (64 - h.p) < h.registers.length := by
    rw [← hidx, hlen]
    exact registerIndex_lt _ _ hp (createHash_lt x)
  refine ⟨_, Add_isSome h x hwf, hidx, remainingBits_eq _ _ (by omega), rfl,
    leadingZeros64_spec _ (remainingBits_lt _ _), ?_⟩
  show (raise h.registers (registerIndex h.p (createHash x)) (rank h.p (createHash x)))[
    createHash x / 2 ^ (64 - h.p)]? = _
  rw [hidx, getElem?_raise, if_pos rfl, List.getD_eq_getElem?_getD,
    List.getElem?_eq_getElem hlt]
  rfl

/-- C11 on the four-register state of precision 2, adding the empty string. -/
theorem add_update_rule_witness :
    ∃ h1, Add ⟨[0, 0, 0, 0], 4, 2⟩ [] = some h1 ∧
      registerIndex 2 (createHash []) = createHash [] / 2 ^ (64 - 2) ∧
      remainingBits 2 (createHash []) = (createHash [] * 2 ^ 2) % 2 ^ 64 ∧
      rank 2 (createHash []) = 1 + LeadingZeros64 (remainingBits 2 (createHash [])) ∧
      (LeadingZeros64 (remainingBits 2 (createHash [])) ≤ 64 ∧
        remainingBits 2 (createHash [])
          < 2 ^ (64 - LeadingZeros64 (remainingBits 2 (createHash []))) ∧
        (LeadingZeros64 (remainingBits 2 (createHash [])) < 64 →
          2 ^ (63 - LeadingZeros64 (remainingBits 2 (createHash [])))
            ≤ remainingBits 2 (createHash []))) ∧
      h1.registers[createHash [] / 2 ^ (64 - 2)]? =
        some (max (([0, 0, 0, 0] : List Nat).getD (createHash [] / 2 ^ (64 - 2)) 0)
          (rank 2 (createHash []))) :=
  add_update_rule 2 (by decide) (by decide) ⟨[0, 0, 0, 0], 4, 2⟩ rfl rfl []

/-- C12. Frame of `Add`: on every state and for every byte string `x`, a returning `Add x`
leaves `m`, `p`, the number of registers and every register other than the one selected by
the index field of the hash of `x` unchanged; and on a well-formed state `Add x` returns. -/
theorem add_frame (h : HLL) (x : List Byte) :
    (∀ h1, Add h x = some h1 →
      h1.m = h.m ∧ h1.p = h.p ∧ h1.registers.length = h.registers.length ∧
        ∀ k, k ≠ registerIndex h.p (createHash x) → h1.registers[k]? = h.registers[k]?) ∧
      (WellFormed h → ∃ h1, Add h x = some h1) := by
  refine ⟨fun h1 hadd => ?_, fun hwf => ⟨_, Add_isSome h x hwf⟩⟩
  rw [Add_eq] at hadd
  split_ifs at hadd with hlt
  have h1eq := (Option.some.inj hadd).symm
  subst h1eq
  refine ⟨rfl, rfl, length_raise _ _ _, fun k hk => ?_⟩
  show (raise h.registers (registerIndex h.p (createHash x)) (rank h.p (createHash x)))[k]? = _
  rw [getElem?_raise, if_neg hk]

/-- C12 on the four-register state of precision 2: adding the empty string touches register 3
only. -/
theorem add_frame_witness :
    Add ⟨[0, 0, 0, 0], 4, 2⟩ [] = some ⟨[0, 0, 0, 3], 4, 2⟩ ∧
      registerIndex 2 (createHash []) = 3 ∧
      ∀ k, k ≠ registerIndex 2 (createHash []) →
        ([0, 0, 0, 3] : List Nat)[k]? = ([0, 0, 0, 0] : List Nat)[k]? :=
  ⟨by decide, by decide,
    ((add_frame ⟨[0, 0, 0, 0], 4, 2⟩ []).1 ⟨[0, 0, 0, 3], 4, 2⟩ (by decide)).2.2.2⟩

/-- C14. Index field: for every precision `p` with `1 ≤ p ≤ 63` and every 64-bit hash value,
the `uint8` shift amount is `64 - p`, the register index `h >> (64 - p)` is
`floor (h / 2 ^ (64 - p))`, its bit `j` is bit `64 - p + j` of the hash (the top `p` bits), and
it is strictly less than `2 ^ p`. -/
theorem index_field (p : Nat) (_hp1 : 1 ≤ p) (hp : p ≤ 63) (hashval : Nat)
    (hh : hashval < 2 ^ 64) :
    numHashBits p = 64 - p ∧ registerIndex p hashval = hashval / 2 ^ (64 - p) ∧
      (∀ j, (registerIndex p hashval).testBit j = hashval.testBit (64 - p + j)) ∧
      registerIndex p hashval < 2 ^ p := by
  refine ⟨numHashBits_eq p (by omega), registerIndex_eq_div p hashval (by omega), fun j => ?_,
    registerIndex_lt p hashval hp hh⟩
  unfold registerIndex
  rw [numHashBits_eq p (by omega), Nat.testBit_shiftRight]

/-- C14 at precision 16 on the hash of `Sigma Balls`. -/
theorem index_field_witness :
    numHashBits 16 = 64 - 16 ∧
      registerIndex 16 8961915313302266388 = 8961915313302266388 / 2 ^ (64 - 16) ∧
      (∀ j, (registerIndex 16 8961915313302266388).testBit j
        = (8961915313302266388 : Nat).testBit (64 - 16 + j)) ∧
      registerIndex 16 8961915313302266388 < 2 ^ 16 :=
  index_field 16 (by decide) (by decide) 8961915313302266388 (by decide)

theorem maxRankAt_eq_zero_iff (p i : Nat) (xs : List (List Byte)) :
    maxRankAt p i xs = 0 ↔ ∀ x ∈ xs, registerIndex p (createHash x) ≠ i := by
  rw [← Nat.le_zero, maxRankAt_le_iff]
  constructor
  · intro hall x hx hxi
    have h1 := one_le_rank p (createHash x)
    have h2 := hall x hx hxi
    omega
  · intro hall x hx hxi
    exact absurd hxi (hall x hx)

/-- The registers of a fresh estimator after a run of `Add` calls, index by index. -/
theorem raiseAll_replicate_eq_map (p n : Nat) (xs : List (List Byte)) :
    raiseAll p (List.replicate n 0) xs = (List.range n).map fun i => maxRankAt p i xs := by
  apply List.ext_getElem?
  intro k
  rw [getElem?_raiseAll, List.getElem?_replicate, List.getElem?_map]
  by_cases hk : k < n
  · rw [if_pos hk, List.getElem?_range hk]
    simp
  · rw [if_neg hk, List.getElem?_eq_none (by simpa using hk)]
    rfl

theorem zeroCount_map_range (p n : Nat) (xs : List (List Byte)) :
    zeroCount ((List.range n).map fun i => maxRankAt p i xs) =
      ((List.range n).filter fun i =>
        decide (∀ x ∈ xs, registerIndex p (createHash x) ≠ i)).length := by
  rw [zeroCount_eq, List.count, List.countP_map, List.countP_eq_length_filter]
  congr 1
  apply List.filter_congr
  intro i _
  rw [Bool.eq_iff_iff]
  simp only [Function.comp, beq_iff_eq, decide_eq_true_eq]
  exact maxRankAt_eq_zero_iff p i xs

/-- C15 (amended to `p ≤ 45`). Meaning of a zero register: for every precision `p` with
`1 ≤ p ≤ 45` and every sequence `xs` of `Add` calls on `New p`, the calls return and
`registers[i] == 0` holds if and only if no element of `xs` has index field `i`; so the count
of zero registers used by `Count` is the number of indices below `2 ^ p` never hit. -/
theorem zero_register_meaning (p : Nat) (_hp1 : 1 ≤ p) (hp : p ≤ 45) (xs : List (List Byte)) :
    ∃ h0 h, New p = some h0 ∧ AddAll h0 xs = some h ∧
      (∀ i, i < 2 ^ p →
        (h.registers[i]? = some 0 ↔ ∀ x ∈ xs, registerIndex p (createHash x) ≠ i)) ∧
      zeroCount h.registers =
        ((List.range (2 ^ p)).filter fun i =>
          decide (∀ x ∈ xs, registerIndex p (createHash x) ≠ i)).length := by
  refine ⟨_, _, New_eq p hp, AddAll_wellFormed _ xs (wellFormed_new p (by omega)), ?_, ?_⟩
  · intro i hi
    show (raiseAll p (List.replicate (2 ^ p) 0) xs)[i]? = some 0 ↔ _
    rw [raiseAll_replicate_eq_map, List.getElem?_map, List.getElem?_range hi,
      ← maxRankAt_eq_zero_iff]
    simp
  · show zeroCount (raiseAll p (List.replicate (2 ^ p) 0) xs) = _
    rw [raiseAll_replicate_eq_map, zeroCount_map_range]

/-- C15 at precision 2 with the empty string added. -/
theorem zero_register_meaning_witness :
    ∃ h0 h, New 2 = some h0 ∧ AddAll h0 [[]] = some h ∧
      (∀ i, i < 2 ^ 2 →
        (h.registers[i]? = some 0 ↔
          ∀ x ∈ [([] : List Byte)], registerIndex 2 (createHash x) ≠ i)) ∧
      zeroCount h.registers =
        ((List.range (2 ^ 2)).filter fun i =>
          decide (∀ x ∈ [([] : List Byte)], registerIndex 2 (createHash x) ≠ i)).length :=
  zero_register_meaning 2 (by decide) (by decide) [[]]

/-- C15 fails as stated at `p = 46` and at `p = 63`: `New` panics in `makeslice` (byte size
above `maxAlloc`, negative `int` length), so there is no register array of which a zero
entry could mean anything. -/
theorem zero_register_meaning_fails_above_45 :
    (¬ ∃ h0 h, New 46 = some h0 ∧ AddAll h0 [] = some h ∧
      ∀ i, i < 2 ^ 46 →
        (h.registers[i]? = some 0 ↔
          ∀ x ∈ ([] : List (List Byte)), registerIndex 46 (createHash x) ≠ i)) ∧
    ¬ ∃ h0 h, New 63 = some h0 ∧ AddAll h0 [] = some h ∧
      ∀ i, i < 2 ^ 63 →
        (h.registers[i]? = some 0 ↔
          ∀ x ∈ ([] : List (List Byte)), registerIndex 63 (createHash x) ≠ i) := by
  have h46 : New 46 = none := by decide
  have h63 : New 63 = none := by decide
  constructor
  · rintro ⟨h0, h, hnew, _⟩
    rw [h46] at hnew
    exact Option.noConfusion hnew
  · rintro ⟨h0, h, hnew, _⟩
    rw [h63] at hnew
    exact Option.noConfusion hnew

theorem log_sixteen_bounds : (2.75 : ℝ) ≤ Real.log 16 ∧ Real.log 16 < 2.8125 := by
  have h16 : Real.log 16 = 4 * Real.log 2 := by
    rw [show (16 : ℝ) = 2 ^ 4 by norm_num, Real.log_pow]
    norm_num
  have hlow := Real.log_two_gt_d9
  have hup := Real.log_two_lt_d9
  rw [h16]
  constructor <;> linarith

/-- Fifteen registers at rank 1 and one empty register: linear counting gives 44. -/
theorem count_one_empty :
    Count ⟨[0, 1, 1, 1, 1, 1, 1, 1, 1, 1, 1, 1, 1, 1, 1, 1], 16, 4⟩ = some 44 := by
  have hsum : harmonicSum [0, 1, 1, 1, 1, 1, 1, 1, 1, 1, 1, 1, 1, 1, 1, 1] = 17 / 2 := by
    rw [harmonicSum_eq]
    norm_num
  have hz : zeroCount [0, 1, 1, 1, 1, 1, 1, 1, 1, 1, 1, 1, 1, 1, 1, 1] = 1 := by decide
  have he : estimate ⟨[0, 1, 1, 1, 1, 1, 1, 1, 1, 1, 1, 1, 1, 1, 1, 1], 16, 4⟩
      = some (0.79402 * ((16 : Nat) : ℝ) * ((16 : Nat) : ℝ) / harmonicSum [0, 1, 1, 1, 1, 1, 1, 1, 1, 1, 1, 1, 1, 1, 1, 1]) :=
    estimate_eq _ (by decide)
  rw [hsum] at he
  have hle : (0.79402 : ℝ) * ((16 : Nat) : ℝ) * ((16 : Nat) : ℝ) / (17 / 2)
      ≤ ((16 : Nat) : ℝ) * 2.5 := by norm_num
  have hb := log_sixteen_bounds
  rw [Count_linear _ _ he hle (by rw [hz]; norm_num) (by norm_num)]
  show toUint64 (((16 : Nat) : ℝ) * Real.log (((16 : Nat) : ℝ) / ((zeroCount [0, 1, 1, 1, 1, 1, 1, 1, 1, 1, 1, 1, 1, 1, 1, 1] : Nat) : ℝ))) = _
  rw [hz]
  simp only [Nat.cast_ofNat, Nat.cast_one, div_one]
  refine toUint64_eq _ 44 ?_ ?_ (by norm_num)
  · have := hb.1
    norm_num
    linarith
  · have := hb.2
    norm_num
    linarith

/-- Sixteen registers at rank 1 and none empty: the raw estimate gives 25. -/
theorem count_none_empty :
    Count ⟨[1, 1, 1, 1, 1, 1, 1, 1, 1, 1, 1, 1, 1, 1, 1, 1], 16, 4⟩ = some 25 := by
  have hsum : harmonicSum [1, 1, 1, 1, 1, 1, 1, 1, 1, 1, 1, 1, 1, 1, 1, 1] = 8 := by
    rw [harmonicSum_eq]
    norm_num
  have hz : zeroCount [1, 1, 1, 1, 1, 1, 1, 1, 1, 1, 1, 1, 1, 1, 1, 1] = 0 := by decide
  have he : estimate ⟨[1, 1, 1, 1, 1, 1, 1, 1, 1, 1, 1, 1, 1, 1, 1, 1], 16, 4⟩
      = some (0.79402 * ((16 : Nat) : ℝ) * ((16 : Nat) : ℝ) / harmonicSum [1, 1, 1, 1, 1, 1, 1, 1, 1, 1, 1, 1, 1, 1, 1, 1]) :=
    estimate_eq _ (by decide)
  rw [hsum] at he
  have hval : (0.79402 : ℝ) * ((16 : Nat) : ℝ) * ((16 : Nat) : ℝ) / 8 = 25.40864 := by norm_num
  rw [hval] at he
  rw [Count_raw _ _ he (Or.inr hz)]
  exact toUint64_eq _ 25 (by norm_num) (by norm_num) (by norm_num)

/-- C16. `Count` is not monotone under `Add`, float arithmetic read as exact reals: at
precision 4, after the fifteen strings of `fifteenItems` registers 1 to 15 hold rank 1 and
register 0 is empty, and `Count` is `44 = floor (16 * ln 16)`; adding `1-item` (hash
`668135096078967234`, index 0, rank 1) fills the last register and `Count` drops to
`25 = floor (0.79402 * 256 / 8)`. -/
theorem count_not_monotone :
    ∃ h0 hA hB, New 4 = some h0 ∧ AddAll h0 fifteenItems = some hA ∧
      createHash lastItem = 668135096078967234 ∧ createHash lastItem < 2 ^ 64 ∧
      AddHash hA (createHash lastItem) = some hB ∧ Add hA lastItem = some hB ∧
      hA.registers = [0, 1, 1, 1, 1, 1, 1, 1, 1, 1, 1, 1, 1, 1, 1, 1] ∧
      hB.registers = [1, 1, 1, 1, 1, 1, 1, 1, 1, 1, 1, 1, 1, 1, 1, 1] ∧
      Count hA = some 44 ∧ Count hB = some 25 ∧
      ∃ a b, Count hA = some a ∧ Count hB = some b ∧ b < a := by
  refine ⟨⟨List.replicate 16 0, 16, 4⟩,
    ⟨[0, 1, 1, 1, 1, 1, 1, 1, 1, 1, 1, 1, 1, 1, 1, 1], 16, 4⟩,
    ⟨[1, 1, 1, 1, 1, 1, 1, 1, 1, 1, 1, 1, 1, 1, 1, 1], 16, 4⟩,
    by decide, by decide, by decide, by decide, by decide, by decide, rfl, rfl,
    count_one_empty, count_none_empty, 44, 25, count_one_empty, count_none_empty, by decide⟩

/-- Raising a register never increases the harmonic sum. -/
theorem harmonicSum_raise_le (l : List Nat) (i r : Nat) :
    harmonicSum (raise l i r) ≤ harmonicSum l := by
  by_cases hi : i < l.length
  · unfold raise
    rw [harmonicSum_eq, harmonicSum_eq, sum_map_set _ l i _ hi]
    have := inv_two_pow_antitone (l.getD i 0) (max (l.getD i 0) r) (le_max_left _ _)
    linarith
  · unfold raise
    rw [List.set_eq_of_length_le (Nat.le_of_not_lt hi)]

/-- C17 (amended to estimators with at least one register). The raw estimate is monotone,
float arithmetic read as exact reals: for every estimator state with at least one register
whose field `m` is its number of registers and every byte string `x`, the raw estimate
`0.79402 * m ^ 2 / (sum of 2 ^ (-registers[i]))` computed inside `Count` is a finite number, it
is at least `0.79402 * m`, and after a returning `Add x` it is at least its value before; on
a well-formed state `Add x` returns. -/
theorem raw_estimate_monotone (h : HLL) (hm : h.m = h.registers.length)
    (hpos : 0 < h.registers.length) (x : List Byte) :
    ∃ est, estimate h = some est ∧ est = 0.79402 * (h.m : ℝ) ^ 2 / specSum h.registers ∧
      0.79402 * (h.m : ℝ) ≤ est ∧
      (∀ h1, Add h x = some h1 → ∃ est1, estimate h1 = some est1 ∧ est ≤ est1) ∧
      (WellFormed h → ∃ h1, Add h x = some h1) := by
  have hsum := harmonicSum_pos h.registers hpos
  refine ⟨_, estimate_eq h hpos, ?_, ?_, fun h1 hadd => ?_, fun hwf => ⟨_, Add_isSome h x hwf⟩⟩
  · rw [specSum_eq, pow_two, mul_assoc]
  · have hle := harmonicSum_le_length h.registers
    rw [hm, le_div_iff₀ hsum]
    have hnn : (0 : ℝ) ≤ 0.79402 * (h.registers.length : ℝ) := by positivity
    exact mul_le_mul_of_nonneg_left hle hnn
  · rw [Add_eq] at hadd
    split_ifs at hadd with hlt
    have h1eq := (Option.some.inj hadd).symm
    subst h1eq
    have hlen1 : 0 < (raise h.registers (registerIndex h.p (createHash x))
        (rank h.p (createHash x))).length := by
      rw [length_raise]
      exact hpos
    refine ⟨_, estimate_eq _ hlen1, ?_⟩
    exact div_le_div_of_nonneg_left (by positivity) (harmonicSum_pos _ hlen1)
      (harmonicSum_raise_le _ _ _)

/-- C17 on the four-register state of precision 2, adding the empty string. -/
theorem raw_estimate_monotone_witness :
    ∃ est, estimate ⟨[0, 0, 0, 0], 4, 2⟩ = some est ∧
      est = 0.79402 * ((4 : Nat) : ℝ) ^ 2 / specSum [0, 0, 0, 0] ∧
      0.79402 * ((4 : Nat) : ℝ) ≤ est ∧
      (∀ h1, Add ⟨[0, 0, 0, 0], 4, 2⟩ [] = some h1 →
        ∃ est1, estimate h1 = some est1 ∧ est ≤ est1) ∧
      (WellFormed ⟨[0, 0, 0, 0], 4, 2⟩ → ∃ h1, Add ⟨[0, 0, 0, 0], 4, 2⟩ [] = some h1) :=
  raw_estimate_monotone ⟨[0, 0, 0, 0], 4, 2⟩ rfl (by decide) []

/-- C17 fails as stated on the no-register estimator that `New 64` returns: the sum is `0`,
`.79402 * m * m / sum` is `0 * 0 / 0 = NaN`, and no number is there to be at least
`0.79402 * m`. -/
theorem raw_estimate_nan_without_registers :
    New 64 = some ⟨[], 0, 64⟩ ∧ harmonicSum [] = 0 ∧ estimate ⟨[], 0, 64⟩ = none ∧
      ¬ ∃ est, estimate ⟨[], 0, 64⟩ = some est ∧ 0.79402 * ((0 : Nat) : ℝ) ≤ est := by
  refine ⟨by decide, by simp [harmonicSum], estimate_nil 0 64, ?_⟩
  rintro ⟨est, he, _⟩
  rw [estimate_nil] at he
  exact Option.noConfusion he

theorem registerIndex_zero (hashval : Nat) (hh : hashval < 2 ^ 64) :
    registerIndex 0 hashval = 0 := by
  rw [registerIndex_eq_div 0 hashval (by omega)]
  exact Nat.div_eq_of_lt hh

theorem rank_zero (hashval : Nat) (hh : hashval < 2 ^ 64) :
    rank 0 hashval = 1 + LeadingZeros64 hashval := by
  unfold rank leftmostActiveBit
  rw [remainingBits_eq 0 hashval (by omega), pow_zero, mul_one, Nat.mod_eq_of_lt hh]

theorem maxRankAt_zero_eq (xs : List (List Byte)) : maxRankAt 0 0 xs = maxLeadingRank xs := by
  induction xs with
  | nil => simp only [maxRankAt, maxLeadingRank, List.filter_nil, List.map_nil, List.foldr_nil]
  | cons x xs ih =>
    rw [maxRankAt_cons, if_pos (registerIndex_zero _ (createHash_lt x)), ih,
      rank_zero _ (createHash_lt x)]
    simp only [maxLeadingRank, List.map_cons, List.foldr_cons]

theorem eq_singleton_of_getElem? (l : List Nat) (a : Nat) (hlen : l.length = 1)
    (h0 : l[0]? = some a) : l = [a] := by
  cases l with
  | nil => simp at hlen
  | cons b t =>
    cases t with
    | nil =>
      simp only [List.getElem?_cons_zero, Option.some.injEq] at h0
      rw [h0]
    | cons c u => simp at hlen

/-- C18. Precision 0 is handled without failure: `New 0` returns an estimator with exactly one
register; for every byte string `x` with hash `h`, `Add` computes index `h >> 64 = 0` and rank
`1 + leadingZeros(h)`; every run of `Add` calls returns, the index stays a valid position, and
the single register holds the maximum of `1 + leadingZeros(hash)` over the added elements. -/
theorem precision_zero (xs : List (List Byte)) :
    New 0 = some ⟨[0], 1, 0⟩ ∧
      (∀ x, numHashBits 0 = 64 ∧ createHash x >>> 64 = 0 ∧
        registerIndex 0 (createHash x) = 0 ∧
        rank 0 (createHash x) = 1 + LeadingZeros64 (createHash x)) ∧
      ∃ h, AddAll ⟨[0], 1, 0⟩ xs = some h ∧ h.registers = [maxLeadingRank xs] ∧
        ∀ x, registerIndex h.p (createHash x) < h.registers.length ∧
          ∃ h1, Add h x = some h1 := by
  have hwf : WellFormed ⟨[0], 1, 0⟩ := ⟨Nat.zero_le _, rfl⟩
  have hwf1 : WellFormed ⟨raiseAll 0 [0] xs, 1, 0⟩ :=
    ⟨Nat.zero_le _, by show (raiseAll 0 [0] xs).length = 2 ^ 0; rw [length_raiseAll]; rfl⟩
  refine ⟨by decide, fun x => ⟨by decide, ?_, registerIndex_zero _ (createHash_lt x),
    rank_zero _ (createHash_lt x)⟩, _, AddAll_wellFormed _ xs hwf, ?_, fun x => ⟨?_, _,
    Add_isSome _ x hwf1⟩⟩
  · rw [Nat.shiftRight_eq_div_pow]
    exact Nat.div_eq_of_lt (createHash_lt x)
  · show raiseAll 0 [0] xs = [maxLeadingRank xs]
    apply eq_singleton_of_getElem? _ _ (by rw [length_raiseAll]; rfl)
    rw [getElem?_raiseAll, maxRankAt_zero_eq]
    simp
  · show registerIndex 0 (createHash x) < (raiseAll 0 [0] xs).length
    rw [registerIndex_zero _ (createHash_lt x), length_raiseAll]
    decide

end Hll
